import Mathlib

/-!
Shallow embedding of the `z_slime` simulation engine (`src/main.rs`, `src/agent.rs`).

Translation conventions:
* `i16` values (grid dimensions, coordinates, color channels, zoom) are modelled as `Int`;
  no arithmetic in the translated code paths comes close to the `i16` range.
* `f32` values that are only ever *compared* (the `rand::random::<f32>()` draws in `[0,1)`
  and `density`) are modelled as `ℚ`; order comparison of finite floats agrees with the
  order of the rationals they denote.  Agent positions/velocities (`f32`) are modelled as
  `ℚ` with exact arithmetic (the single multiply is by the constant `1.0`).
* `Vec<Vec<Cell>>` is `List (List Cell)`, indexed `tiles[y][x]` exactly as the source.
  Rust's panicking index operator is modelled by `Option`-returning reads and writes
  (`tileAt?`, `setTile?`); a panic anywhere makes the whole update return `none`.
* The RNG is modelled by oracles supplying one value per use site: `rand::random::<f32>() <
  RATE` comparisons become per-cell `Bool` oracles (every outcome of a real draw is some
  oracle, and the claims quantify over all oracles), `SliceRandom::choose` becomes an
  arbitrary index reduced mod the list length, `gen_range(-2..3)` becomes a per-cell
  integer-triple oracle, and the per-block seed draw stays a `ℚ` in `[0,1)`.
* `for x in 0..w { for y in 0..h { .. } }` loops that mutate a buffer become a left fold
  (`writeFold`) over the coordinate list in source order; `continue` is a skipped write.
-/

set_option maxRecDepth 40000

namespace ZSlime

/-- Cell is the closed variant type of `main.rs` (`Empty`, `Wall`, `Life(i16,i16,i16)`). -/
inductive Cell where
  | Empty : Cell
  | Wall : Cell
  | Life : Int → Int → Int → Cell
  deriving DecidableEq, Repr

/-- Tiles models `Vec<Vec<Cell>>`; the outer index is the row `y`, the inner the column `x`. -/
abbrev Tiles := List (List Cell)

/-- tileAt? models the read `self.tiles[y as usize][x as usize]`: `none` is the panic on a
negative coordinate (huge `usize` after the cast) or an out-of-range index. -/
def tileAt? (t : Tiles) (y x : Int) : Option Cell :=
  if 0 ≤ y ∧ 0 ≤ x then
    match t[y.toNat]? with
    | some row => row[x.toNat]?
    | none => none
  else none

/-- setTile? models the write `tiles[y as usize][x as usize] = c`, `none` being the panic. -/
def setTile? (t : Tiles) (y x : Int) (c : Cell) : Option Tiles :=
  if 0 ≤ y ∧ 0 ≤ x then
    match t[y.toNat]? with
    | some row =>
      if x.toNat < row.length then some (t.set y.toNat (row.set x.toNat c))
      else none
    | none => none
  else none

/-- offsets is the list of `(i, j)` pairs produced by `for i in -1..2 { for j in -1..2 }`
with `i == 0 && j == 0` skipped, in source iteration order; `i` is added to `x`, `j` to `y`. -/
def offsets : List (Int × Int) :=
  [(-1, -1), (-1, 0), (-1, 1), (0, -1), (0, 1), (1, -1), (1, 0), (1, 1)]

/-- lifeNeighborScan models the neighbor loop of `update_life`: it accumulates the counter
`neighbors` and the vector `neighbor_list` over the 8 offsets, skipping coordinates outside
`[0,width) × [0,height)` (no wraparound), and pushing every `Life` cell found. -/
def lifeNeighborScan (t : Tiles) (width height x y : Int) : Option (Nat × List Cell) :=
  offsets.foldl
    (fun acc p =>
      acc.bind fun s =>
        if x + p.1 < 0 ∨ x + p.1 ≥ width ∨ y + p.2 < 0 ∨ y + p.2 ≥ height then some s
        else
          (tileAt? t (y + p.2) (x + p.1)).map fun c =>
            match c with
            | Cell.Life r g b => (s.1 + 1, s.2 ++ [Cell.Life r g b])
            | _ => s)
    (some (0, []))

/-- emptyNeighborScan models the neighbor loop of `update_map_iteration`: it counts the
in-bounds 8-neighbors that are `Cell::Empty`. -/
def emptyNeighborScan (t : Tiles) (width height x y : Int) : Option Nat :=
  offsets.foldl
    (fun acc p =>
      acc.bind fun n =>
        if x + p.1 < 0 ∨ x + p.1 ≥ width ∨ y + p.2 < 0 ∨ y + p.2 ≥ height then some n
        else (tileAt? t (y + p.2) (x + p.1)).map fun c => if c = Cell.Empty then n + 1 else n)
    (some 0)

/-- mutate_life_cell translates the function of the same name: each channel offset (drawn
from `gen_range(-2..3)` in the source, here passed in) is applied only when the shifted
value stays in `(0, 255]`, otherwise the channel is left unchanged. -/
def mutate_life_cell (rgb : Int × Int × Int) (off : Int × Int × Int) : Int × Int × Int :=
  let r := rgb.1
  let g := rgb.2.1
  let b := rgb.2.2
  let r_mutate := off.1
  let g_mutate := off.2.1
  let b_mutate := off.2.2
  (if r + r_mutate > 0 ∧ r + r_mutate ≤ 255 then r + r_mutate else r,
   if g + g_mutate > 0 ∧ g + g_mutate ≤ 255 then g + g_mutate else g,
   if b + b_mutate > 0 ∧ b + b_mutate ≤ 255 then b + b_mutate else b)

/-- chooseFrom models `SliceRandom::choose`: `none` on an empty slice, otherwise some element;
the uniformly random selection is an oracle index `k` reduced mod the length. -/
def chooseFrom (l : List Cell) (k : Nat) : Option Cell :=
  if l.isEmpty then none else l[k % l.length]?

/-- LifeRand packages the per-cell random draws consumed by `update_life`: the two
`rand::random::<f32>() < RATE` outcomes, the `choose` index, and the three
`gen_range(-2..3)` color offsets used by `mutate_life_cell`. -/
structure LifeRand where
  willSurvive : Int → Int → Bool
  willSpawn : Int → Int → Bool
  pick : Int → Int → Nat
  mutOff : Int → Int → Int × Int × Int

/-- SeedRand packages the per-block `rand::random::<f32>()` draw of `update_seed`. -/
structure SeedRand where
  draw : Int → Int → ℚ

/-- World mirrors the `World` struct (the unused render field `scale` included). -/
structure World where
  density : ℚ
  width : Int
  height : Int
  scale : ℚ
  zoom : Int
  tiles : Tiles

/-- CELLS_WIDTH is the constant of the same name in `main.rs`. -/
def CELLS_WIDTH : Int := 300

/-- CELLS_HEIGHT is the constant of the same name in `main.rs`. -/
def CELLS_HEIGHT : Int := 300

/-- World.new translates the constructor: a `CELLS_WIDTH`-row, `CELLS_HEIGHT`-column grid of
`Empty` (the `f32` literals `0.4` and `2.0` become the rationals they denote). -/
def World.new : World :=
  { density := mkRat 2 5
    width := CELLS_WIDTH
    height := CELLS_HEIGHT
    scale := 2
    zoom := 1
    tiles := List.replicate CELLS_WIDTH.toNat (List.replicate CELLS_HEIGHT.toNat Cell.Empty) }

/-- lifeCellWrite is the body of the `update_life` double loop at one cell `(x, y)`:
`some none` means the iteration writes nothing into `new_tiles` (the `Wall` `continue`, the
structurally-empty death branch, and the no-op fallthrough), `some (some c)` means it writes
`c` (the spawn branch), and `none` is a panic. -/
def lifeCellWrite (t : Tiles) (width height : Int) (r : LifeRand) (x y : Int) :
    Option (Option Cell) :=
  match tileAt? t y x with
  | none => none
  | some Cell.Wall => some none
  | some _ =>
    match lifeNeighborScan t width height x y with
    | none => none
    | some s =>
      if (s.1 > 5 ∨ s.1 < 3) ∧ ¬ r.willSurvive x y then
        some none
      else if s.1 > 0 ∧ r.willSpawn x y then
        match chooseFrom s.2 (r.pick x y) with
        | some (Cell.Life rr gg bb) =>
          some (some (Cell.Life
            (mutate_life_cell (rr, gg, bb) (r.mutOff x y)).1
            (mutate_life_cell (rr, gg, bb) (r.mutOff x y)).2.1
            (mutate_life_cell (rr, gg, bb) (r.mutOff x y)).2.2))
        | _ => some none
      else some none

/-- mapCellWrite is the body of the `update_map_iteration` double loop at one cell: count the
Empty neighbors, read the current tile, apply the threshold-4 rule, and always write. -/
def mapCellWrite (t : Tiles) (width height : Int) (x y : Int) : Option (Option Cell) :=
  match emptyNeighborScan t width height x y with
  | none => none
  | some n =>
    match tileAt? t y x with
    | none => none
    | some c =>
      some (some (if n > 4 then Cell.Empty else if n < 4 then Cell.Wall else c))

/-- writeFold folds a buffer-mutating loop over its coordinate list: at each `p = (x, y)` the
decision `dec p` either panics (`none`), writes nothing, or writes one cell at `(x, y)`. -/
def writeFold (dec : Int × Int → Option (Option Cell)) (l : List (Int × Int)) (b : Tiles) :
    Option Tiles :=
  l.foldl
    (fun acc p =>
      acc.bind fun buf =>
        match dec p with
        | none => none
        | some none => some buf
        | some (some c) => setTile? buf p.2 p.1 c)
    (some b)

/-- loopCoords is the coordinate sequence of `for x in 0..width { for y in 0..height }`. -/
def loopCoords (width height : Int) : List (Int × Int) :=
  (List.range width.toNat).flatMap fun (x : Nat) =>
    (List.range height.toNat).map fun (y : Nat) => ((x : Int), (y : Int))

/-- World.update_life translates `update_life`: the buffer starts as a clone of `tiles`, every
cell of the `width × height` loop contributes via `lifeCellWrite`, and the buffer replaces
`tiles` at the end. -/
def World.update_life (w : World) (r : LifeRand) : Option World :=
  (writeFold (fun p => lifeCellWrite w.tiles w.width w.height r p.1 p.2)
      (loopCoords w.width w.height) w.tiles).map
    fun t => { w with tiles := t }

/-- World.update_map_iteration translates `update_map_iteration`: the buffer is a freshly
allocated `CELLS_WIDTH × CELLS_HEIGHT` all-`Empty` grid (constants, not `self` fields), and
every cell of the `width × height` loop is written via `mapCellWrite`. -/
def World.update_map_iteration (w : World) : Option World :=
  (writeFold (fun p => mapCellWrite w.tiles w.width w.height p.1 p.2)
      (loopCoords w.width w.height)
      (List.replicate CELLS_WIDTH.toNat (List.replicate CELLS_HEIGHT.toNat Cell.Empty))).map
    fun t => { w with tiles := t }

/-- seedWrites is the write-coordinate sequence of `update_seed`: blocks `x` in
`0..width/zoom` (outer) and `y` in `0..height/zoom`, then offsets `i` (outer) and `j` in
`0..zoom`, writing column `x*zoom + i`, row `y*zoom + j`. -/
def seedWrites (width height zoom : Int) : List (Int × Int) :=
  (List.range (width / zoom).toNat).flatMap fun (bx : Nat) =>
    (List.range (height / zoom).toNat).flatMap fun (byy : Nat) =>
      (List.range zoom.toNat).flatMap fun (i : Nat) =>
        (List.range zoom.toNat).map fun (j : Nat) =>
          (((bx * zoom.toNat + i : Nat) : Int), ((byy * zoom.toNat + j : Nat) : Int))

/-- World.update_seed translates `update_seed`: one draw per `zoom × zoom` block decides
`Empty` (draw strictly above `density`) or `Wall`, and the whole block is filled with it in
place.  Written cell `(x, y)` belongs to block `(x / zoom, y / zoom)`, so the per-block draw
is recovered from the cell coordinate.  `zoom = 0` is the `width/zoom` division panic; all
quantities are nonnegative in every reachable state, so `Int` euclidean division agrees with
Rust's truncating `i16` division. -/
def World.update_seed (w : World) (s : SeedRand) : Option World :=
  if w.zoom = 0 then none
  else
    (writeFold
        (fun p =>
          some (some (if s.draw (p.1 / w.zoom) (p.2 / w.zoom) > w.density then Cell.Empty
            else Cell.Wall)))
        (seedWrites w.width w.height w.zoom) w.tiles).map
      fun t => { w with tiles := t }

/-- World.place_life translates the mouse-release handler body at a grid cell: a `Wall` cell
is left alone, anything else is overwritten with `Life` of three freshly drawn channels
(`gen_range(0..=255)`, passed in as oracle values). -/
def World.place_life (w : World) (row col : Int) (r g b : Int) : Option World :=
  match tileAt? w.tiles row col with
  | none => none
  | some c =>
    if c = Cell.Wall then some w
    else (setTile? w.tiles row col (Cell.Life r g b)).map fun t => { w with tiles := t }

/-- i16ToU8? models `(v : i16).try_into().unwrap() : u8` in `World::draw`: it succeeds
exactly when the channel lies in `[0, 255]`. -/
def i16ToU8? (v : Int) : Option Nat :=
  if 0 ≤ v ∧ v ≤ 255 then some v.toNat else none

/-- cellRgba? models the per-tile rgba computation of `World::draw`. -/
def cellRgba? (c : Cell) : Option (Nat × Nat × Nat × Nat) :=
  match c with
  | Cell.Empty => some (255, 255, 255, 255)
  | Cell.Wall => some (0, 0, 0, 255)
  | Cell.Life r g b =>
    match i16ToU8? r, i16ToU8? g, i16ToU8? b with
    | some rr, some gg, some bb => some (rr, gg, bb, 255)
    | _, _, _ => none

/-- AGENT_SPEED is the constant of the same name in `agent.rs`. -/
def AGENT_SPEED : ℚ := 1

/-- Agent mirrors the `Agent` struct of `agent.rs` (color as an integer triple). -/
structure Agent where
  x : ℚ
  y : ℚ
  rgb : Int × Int × Int
  velocity : ℚ × ℚ

/-- Agent.update translates `Agent::update`: advance by the velocity scaled by
`AGENT_SPEED`, then flip the sign of each velocity component whose updated coordinate
crossed `[0, world_width]` resp. `[0, world_height]`. -/
def Agent.update (a : Agent) (world_height world_width : Nat) : Agent :=
  let x := (a.x + a.velocity.1) * AGENT_SPEED
  let y := (a.y + a.velocity.2) * AGENT_SPEED
  let vx := if x ≥ (world_width : ℚ) ∨ x ≤ 0 then a.velocity.1 * (-1) else a.velocity.1
  let vy := if y ≥ (world_height : ℚ) ∨ y ≤ 0 then a.velocity.2 * (-1) else a.velocity.2
  { a with x := x, y := y, velocity := (vx, vy) }

/-- gridFits states that the `width × height` loop ranges fit inside the actual `tiles`
storage, which is what makes every translated index read/write succeed. -/
def gridFits (t : Tiles) (width height : Int) : Prop :=
  height.toNat ≤ t.length ∧ ∀ row ∈ t, width.toNat ≤ row.length

/-- reachableDims states the dimensions every reachable `World` has: `World.new` builds a
`300 × 300` grid with `width = height = 300`, and no operation changes any of that. -/
def reachableDims (w : World) : Prop :=
  w.width = CELLS_WIDTH ∧ w.height = CELLS_HEIGHT ∧ w.tiles.length = CELLS_WIDTH.toNat ∧
    ∀ row ∈ w.tiles, row.length = CELLS_HEIGHT.toNat

/-- dimsEq states that two grids have the same row count and the same length at every row. -/
def dimsEq (t u : Tiles) : Prop :=
  t.length = u.length ∧ ∀ i : Nat, (t[i]?).map List.length = (u[i]?).map List.length

/-- inRange255 states that all three channels of a color triple lie in `[0, 255]`. -/
def inRange255 (rgb : Int × Int × Int) : Prop :=
  0 ≤ rgb.1 ∧ rgb.1 ≤ 255 ∧ 0 ≤ rgb.2.1 ∧ rgb.2.1 ≤ 255 ∧ 0 ≤ rgb.2.2 ∧ rgb.2.2 ≤ 255

/-- lifeInvariant states that every `Life` cell stored in the grid has channels in `[0,255]`. -/
def lifeInvariant (t : Tiles) : Prop :=
  ∀ y x r g b, tileAt? t y x = some (Cell.Life r g b) → inRange255 (r, g, b)

/-- resolveLife is the per-cell value `update_life` is supposed to produce, as a pure
function of the pre-step grid: the written cell if the iteration writes, the carried-over
current cell if it does not. -/
def resolveLife (t : Tiles) (width height : Int) (r : LifeRand) (x y : Int) : Option Cell :=
  match lifeCellWrite t width height r x y with
  | some (some c) => some c
  | some none => tileAt? t y x
  | none => none

/-- resolveMap is the per-cell value `update_map_iteration` produces, as a pure function of
the pre-step grid. -/
def resolveMap (t : Tiles) (width height : Int) (x y : Int) : Option Cell :=
  match mapCellWrite t width height x y with
  | some (some c) => some c
  | some none => tileAt? t y x
  | none => none

/-! Helper lemmas about indexing, dimensions, and buffer folds. -/

theorem tileAt?_eq (t : Tiles) (y x : Int) (row : List Cell)
    (h1 : 0 ≤ y) (h2 : 0 ≤ x) (hrow : t[y.toNat]? = some row) :
    tileAt? t y x = row[x.toNat]? := by
  simp [tileAt?, h1, h2, hrow]

theorem tileAt?_some_of_fits {t : Tiles} {width height : Int} (hf : gridFits t width height)
    {x y : Int} (hx : 0 ≤ x) (hxl : x < width) (hy : 0 ≤ y) (hyl : y < height) :
    ∃ c, tileAt? t y x = some c := by
  obtain ⟨hlen, hrows⟩ := hf
  have hyn : y.toNat < t.length := by omega
  have hrow : t[y.toNat]? = some t[y.toNat] := List.getElem?_eq_getElem hyn
  have hmem : t[y.toNat] ∈ t := List.getElem_mem hyn
  have hxn : x.toNat < t[y.toNat].length := by
    have := hrows _ hmem
    omega
  exact ⟨_, by rw [tileAt?_eq t y x _ hy hx hrow]; exact List.getElem?_eq_getElem hxn⟩

theorem getElem?_some_iff {α : Type} (l : List α) (i : Nat) (a : α) :
    l[i]? = some a ↔ ∃ h : i < l.length, l[i] = a := by
  constructor
  · intro h
    have hlt : i < l.length := by
      by_contra hge
      rw [List.getElem?_eq_none (by omega)] at h
      exact Option.noConfusion h
    refine ⟨hlt, ?_⟩
    rw [List.getElem?_eq_getElem hlt] at h
    exact (Option.some.injEq _ _).mp h
  · rintro ⟨h, rfl⟩
    exact List.getElem?_eq_getElem h

theorem setTile?_eq (t : Tiles) (y x : Int) (c : Cell) (row : List Cell)
    (h1 : 0 ≤ y) (h2 : 0 ≤ x) (hrow : t[y.toNat]? = some row) (hx : x.toNat < row.length) :
    setTile? t y x c = some (t.set y.toNat (row.set x.toNat c)) := by
  simp [setTile?, h1, h2, hrow, hx]

theorem dimsEq_refl (t : Tiles) : dimsEq t t := ⟨rfl, fun _ => rfl⟩

theorem dimsEq_trans {t u v : Tiles} (h1 : dimsEq t u) (h2 : dimsEq u v) : dimsEq t v :=
  ⟨h1.1.trans h2.1, fun i => (h1.2 i).trans (h2.2 i)⟩

theorem dimsEq_row {t u : Tiles} (h : dimsEq u t) {i : Nat} {row : List Cell}
    (hrow : t[i]? = some row) : ∃ row2, u[i]? = some row2 ∧ row2.length = row.length := by
  have := h.2 i
  rw [hrow] at this
  match hu : u[i]? with
  | some row2 =>
    rw [hu] at this
    exact ⟨row2, rfl, by simpa using this⟩
  | none => rw [hu] at this; simp at this

theorem setTile?_dimsEq (t : Tiles) (y x : Int) (c : Cell) (row : List Cell)
    (hrow : t[y.toNat]? = some row) :
    dimsEq (t.set y.toNat (row.set x.toNat c)) t := by
  obtain ⟨hlt, -⟩ := (getElem?_some_iff t y.toNat row).mp hrow
  refine ⟨by simp, fun i => ?_⟩
  by_cases hi : y.toNat = i
  · subst hi
    rw [List.getElem?_set_eq_of_lt _ (by simpa using hlt), hrow]
    simp
  · rw [List.getElem?_set_ne hi]

theorem tileAt?_set_self (t : Tiles) (y x : Int) (c : Cell) (row : List Cell)
    (h1 : 0 ≤ y) (h2 : 0 ≤ x) (hrow : t[y.toNat]? = some row) (hx : x.toNat < row.length) :
    tileAt? (t.set y.toNat (row.set x.toNat c)) y x = some c := by
  obtain ⟨hlt, -⟩ := (getElem?_some_iff t y.toNat row).mp hrow
  have hrow2 : (t.set y.toNat (row.set x.toNat c))[y.toNat]? = some (row.set x.toNat c) :=
    List.getElem?_set_eq_of_lt _ (by simpa using hlt)
  rw [tileAt?_eq _ y x _ h1 h2 hrow2]
  exact List.getElem?_set_eq_of_lt c (by simpa using hx)

theorem tileAt?_set_ne (t : Tiles) (y x : Int) (c : Cell) (row : List Cell)
    (h1 : 0 ≤ y) (h2 : 0 ≤ x) (hrow : t[y.toNat]? = some row)
    {y2 x2 : Int} (hne : ¬ (x2 = x ∧ y2 = y)) :
    tileAt? (t.set y.toNat (row.set x.toNat c)) y2 x2 = tileAt? t y2 x2 := by
  obtain ⟨hlt, -⟩ := (getElem?_some_iff t y.toNat row).mp hrow
  by_cases hs : 0 ≤ y2 ∧ 0 ≤ x2
  · by_cases hyn : y.toNat = y2.toNat
    · have hyy : y2 = y := by omega
      have hxx : ¬ x2 = x := fun h => hne ⟨h, hyy⟩
      have hxn : x.toNat ≠ x2.toNat := by omega
      have hrow2 : (t.set y.toNat (row.set x.toNat c))[y2.toNat]? = some (row.set x.toNat c) := by
        rw [← hyn]
        exact List.getElem?_set_eq_of_lt _ (by simpa using hlt)
      rw [tileAt?_eq _ y2 x2 _ hs.1 hs.2 hrow2,
        tileAt?_eq t y2 x2 row hs.1 hs.2 (by rw [← hyn]; exact hrow)]
      exact List.getElem?_set_ne hxn
    · unfold tileAt?
      rw [if_pos hs, if_pos hs, List.getElem?_set_ne hyn]
  · unfold tileAt?
    rw [if_neg hs, if_neg hs]

theorem gridFits_of_dimsEq {t u : Tiles} {width height : Int} (h : dimsEq u t)
    (hf : gridFits t width height) : gridFits u width height := by
  obtain ⟨hlen, hrows⟩ := hf
  refine ⟨h.1 ▸ hlen, fun row hrow => ?_⟩
  obtain ⟨i, hi⟩ := List.mem_iff_getElem?.mp hrow
  have h2 := h.2 i
  rw [hi] at h2
  match ht : t[i]? with
  | some row2 =>
    rw [ht] at h2
    simp only [Option.map_some'] at h2
    have hmem : row2 ∈ t := List.mem_iff_getElem?.mpr ⟨i, ht⟩
    have h3 := hrows row2 hmem
    have h4 : row.length = row2.length := Option.some.inj h2
    omega
  | none => rw [ht] at h2; simp at h2

/-- writeFold_spec characterizes one buffered loop pass: when every decision is panic-free
and every write lands inside the buffer, the loop succeeds, preserves the buffer dimensions,
stores the decided value at every written coordinate, and leaves every other coordinate
untouched.  The decided values are pure functions of the coordinate (they read only the
pre-step grid), which is exactly the double-buffering discipline. -/
theorem writeFold_spec (dec : Int × Int → Option (Option Cell)) (l : List (Int × Int)) :
    ∀ b : Tiles,
      (∀ p ∈ l, ∃ oc, dec p = some oc ∧
        (∀ c : Cell, oc = some c → 0 ≤ p.2 ∧ 0 ≤ p.1 ∧
          ∃ row, b[p.2.toNat]? = some row ∧ p.1.toNat < row.length)) →
      ∃ t, writeFold dec l b = some t ∧ dimsEq t b ∧
        (∀ x y c, (x, y) ∈ l → dec (x, y) = some (some c) → tileAt? t y x = some c) ∧
        (∀ x y, ((x, y) ∉ l ∨ dec (x, y) = some none) → tileAt? t y x = tileAt? b y x) := by
  induction l with
  | nil =>
    intro b _
    exact ⟨b, rfl, dimsEq_refl b, by simp, fun x y _ => rfl⟩
  | cons p rest ih =>
    intro b H
    obtain ⟨oc, hdec, hbnd⟩ := H p (List.mem_cons_self p rest)
    match oc, hdec, hbnd with
    | none, hdec, _ =>
      have hstep : writeFold dec (p :: rest) b = writeFold dec rest b := by
        simp [writeFold, hdec]
      obtain ⟨t, ht, hdims, hA, hB⟩ := ih b (fun q hq => H q (List.mem_cons_of_mem p hq))
      refine ⟨t, hstep ▸ ht, hdims, ?_, ?_⟩
      · intro x y c hmem hdxy
        rcases List.mem_cons.mp hmem with heq | hmem2
        · rw [heq, hdec] at hdxy
          exact absurd (Option.some.inj hdxy) (by simp)
        · exact hA x y c hmem2 hdxy
      · intro x y hor
        refine hB x y ?_
        rcases hor with hnm | hsk
        · exact Or.inl fun h => hnm (List.mem_cons_of_mem p h)
        · exact Or.inr hsk
    | some c0, hdec, hbnd =>
      obtain ⟨hy0, hx0, row, hrow, hxlt⟩ := hbnd c0 rfl
      have hset : setTile? b p.2 p.1 c0 = some (b.set p.2.toNat (row.set p.1.toNat c0)) :=
        setTile?_eq b p.2 p.1 c0 row hy0 hx0 hrow hxlt
      have hstep : writeFold dec (p :: rest) b =
          writeFold dec rest (b.set p.2.toNat (row.set p.1.toNat c0)) := by
        simp [writeFold, hdec, hset]
      have hd1 : dimsEq (b.set p.2.toNat (row.set p.1.toNat c0)) b :=
        setTile?_dimsEq b p.2 p.1 c0 row hrow
      obtain ⟨t, ht, hdims, hA, hB⟩ :=
        ih (b.set p.2.toNat (row.set p.1.toNat c0)) (fun q hq => by
          obtain ⟨oc2, hdec2, hbnd2⟩ := H q (List.mem_cons_of_mem p hq)
          refine ⟨oc2, hdec2, fun c2 hc2 => ?_⟩
          obtain ⟨hqy, hqx, rowq, hrowq, hqlt⟩ := hbnd2 c2 hc2
          obtain ⟨rowq2, hrowq2, hlen2⟩ := dimsEq_row hd1 hrowq
          exact ⟨hqy, hqx, rowq2, hrowq2, by omega⟩)
      refine ⟨t, hstep ▸ ht, dimsEq_trans hdims hd1, ?_, ?_⟩
      · intro x y c hmem hdxy
        by_cases hr : (x, y) ∈ rest
        · exact hA x y c hr hdxy
        · have heq : (x, y) = p := by
            rcases List.mem_cons.mp hmem with h | h
            · exact h
            · exact absurd h hr
          have hc : c = c0 := by
            rw [heq, hdec] at hdxy
            exact (Option.some.inj (Option.some.inj hdxy)).symm
          have hunch := hB x y (Or.inl hr)
          rw [hunch, hc]
          obtain ⟨hp1, hp2⟩ : x = p.1 ∧ y = p.2 := Prod.mk.injEq .. ▸ heq
          subst hp1
          subst hp2
          exact tileAt?_set_self b p.2 p.1 c0 row hy0 hx0 hrow hxlt
      · intro x y hor
        have hne : ¬ (x = p.1 ∧ y = p.2) := by
          rcases hor with hnm | hsk
          · intro hand
            exact hnm (by
              have : (x, y) = p := Prod.ext hand.1 hand.2
              rw [this]
              exact List.mem_cons_self p rest)
          · intro hand
            have : (x, y) = p := Prod.ext hand.1 hand.2
            rw [← this] at hdec
            rw [hdec] at hsk
            exact absurd (Option.some.inj hsk) (by simp)
        have hstep2 : tileAt? t y x = tileAt? (b.set p.2.toNat (row.set p.1.toNat c0)) y x := by
          refine hB x y ?_
          rcases hor with hnm | hsk
          · exact Or.inl fun h => hnm (List.mem_cons_of_mem p h)
          · exact Or.inr hsk
        rw [hstep2]
        exact tileAt?_set_ne b p.2 p.1 c0 row hy0 hx0 hrow hne

/-- mem_loopCoords identifies the coordinates visited by the `update_life` and
`update_map_iteration` double loops. -/
theorem mem_loopCoords {width height x y : Int} :
    (x, y) ∈ loopCoords width height ↔ 0 ≤ x ∧ x < width ∧ 0 ≤ y ∧ y < height := by
  unfold loopCoords
  constructor
  · intro h
    obtain ⟨a, ha, hmem⟩ := List.mem_flatMap.mp h
    obtain ⟨b, hb, heq⟩ := List.mem_map.mp hmem
    have ha2 := List.mem_range.mp ha
    have hb2 := List.mem_range.mp hb
    have hx : (a : Int) = x := congrArg Prod.fst heq
    have hy : (b : Int) = y := congrArg Prod.snd heq
    omega
  · rintro ⟨hx0, hxw, hy0, hyh⟩
    refine List.mem_flatMap.mpr ⟨x.toNat, List.mem_range.mpr (by omega), ?_⟩
    refine List.mem_map.mpr ⟨y.toNat, List.mem_range.mpr (by omega), ?_⟩
    rw [Int.toNat_of_nonneg hx0, Int.toNat_of_nonneg hy0]

/-- optFoldl_none notes that an option-chained fold starting from `none` stays `none`. -/
theorem optFoldl_none {α β : Type} (g : β → α → Option β) :
    ∀ l : List α, l.foldl (fun acc a => acc.bind fun z => g z a) none = none
  | [] => rfl
  | a :: rest => by
    rw [List.foldl_cons]
    exact optFoldl_none g rest

/-- optFoldl_some shows an option-chained fold succeeds when every step does. -/
theorem optFoldl_some {α β : Type} (g : β → α → Option β) :
    ∀ l : List α, (∀ a ∈ l, ∀ s : β, (g s a).isSome) →
      ∀ s : β, (l.foldl (fun acc a => acc.bind fun z => g z a) (some s)).isSome
  | [], _, s => by simp
  | a :: rest, H, s => by
    rw [List.foldl_cons]
    obtain ⟨s2, hs2⟩ := Option.isSome_iff_exists.mp (H a (List.mem_cons_self a rest) s)
    rw [show ((some s).bind fun z => g z a) = g s a from rfl, hs2]
    exact optFoldl_some g rest (fun a2 ha2 s3 => H a2 (List.mem_cons_of_mem a ha2) s3) s2

/-- optFoldl_pres carries an invariant through an option-chained fold. -/
theorem optFoldl_pres {α β : Type} (g : β → α → Option β) (P : β → Prop) :
    ∀ l : List α, (∀ a ∈ l, ∀ s s2 : β, P s → g s a = some s2 → P s2) →
      ∀ s : β, P s →
        ∀ s2 : β, l.foldl (fun acc a => acc.bind fun z => g z a) (some s) = some s2 → P s2
  | [], _, s, hP, s2, h => by
    rw [List.foldl_nil] at h
    exact Option.some.inj h ▸ hP
  | a :: rest, H, s, hP, s2, h => by
    rw [List.foldl_cons, show ((some s).bind fun z => g z a) = g s a from rfl] at h
    match hg : g s a with
    | some s1 =>
      rw [hg] at h
      exact optFoldl_pres g P rest (fun a2 ha2 => H a2 (List.mem_cons_of_mem a ha2)) s1
        (H a (List.mem_cons_self a rest) s s1 hP hg) s2 h
    | none =>
      rw [hg, optFoldl_none g rest] at h
      exact Option.noConfusion h

/-- lifeNeighborScan_some shows the `update_life` neighbor loop is panic-free on a grid that
holds its loop bounds. -/
theorem lifeNeighborScan_some {t : Tiles} {width height : Int} (hf : gridFits t width height)
    (x y : Int) : (lifeNeighborScan t width height x y).isSome := by
  unfold lifeNeighborScan
  refine optFoldl_some _ offsets (fun p _ s => ?_) (0, [])
  by_cases hB : x + p.1 < 0 ∨ x + p.1 ≥ width ∨ y + p.2 < 0 ∨ y + p.2 ≥ height
  · rw [if_pos hB]
    rfl
  · push_neg at hB
    obtain ⟨c, hc⟩ :=
      @tileAt?_some_of_fits t width height hf (x + p.1) (y + p.2)
        (by omega) (by omega) (by omega) (by omega)
    rw [if_neg (by push_neg; omega), hc]
    rfl

/-- emptyNeighborScan_some shows the `update_map_iteration` neighbor loop is panic-free on a
grid that holds its loop bounds. -/
theorem emptyNeighborScan_some {t : Tiles} {width height : Int} (hf : gridFits t width height)
    (x y : Int) : (emptyNeighborScan t width height x y).isSome := by
  unfold emptyNeighborScan
  refine optFoldl_some _ offsets (fun p _ n => ?_) 0
  by_cases hB : x + p.1 < 0 ∨ x + p.1 ≥ width ∨ y + p.2 < 0 ∨ y + p.2 ≥ height
  · rw [if_pos hB]
    rfl
  · push_neg at hB
    obtain ⟨c, hc⟩ :=
      @tileAt?_some_of_fits t width height hf (x + p.1) (y + p.2)
        (by omega) (by omega) (by omega) (by omega)
    rw [if_neg (by push_neg; omega), hc]
    rfl

/-- lifeNeighborScan_count shows the `neighbors` counter always equals the length of the
collected `neighbor_list` (they are incremented together in the source). -/
theorem lifeNeighborScan_count {t : Tiles} {width height x y : Int} {s : Nat × List Cell}
    (h : lifeNeighborScan t width height x y = some s) : s.1 = s.2.length := by
  unfold lifeNeighborScan at h
  refine optFoldl_pres _ (fun z => z.1 = z.2.length) offsets (fun p _ z z2 hz hg => ?_)
    (0, []) rfl s h
  by_cases hB : x + p.1 < 0 ∨ x + p.1 ≥ width ∨ y + p.2 < 0 ∨ y + p.2 ≥ height
  · rw [if_pos hB] at hg
    exact Option.some.inj hg ▸ hz
  · rw [if_neg hB] at hg
    match hc : tileAt? t (y + p.2) (x + p.1) with
    | none => rw [hc] at hg; exact Option.noConfusion hg
    | some c =>
      rw [hc] at hg
      simp only [Option.map_some'] at hg
      match c, hg with
      | Cell.Life a b d, hg =>
        rw [← Option.some.inj hg]
        simp [hz]
      | Cell.Empty, hg => exact Option.some.inj hg ▸ hz
      | Cell.Wall, hg => exact Option.some.inj hg ▸ hz

/-- lifeNeighborScan_elem traces every collected neighbor back to an in-bounds `Life` cell of
the current grid at one of the 8 offsets. -/
theorem lifeNeighborScan_elem {t : Tiles} {width height x y : Int} {s : Nat × List Cell}
    (h : lifeNeighborScan t width height x y = some s) :
    ∀ cn ∈ s.2, ∃ i j : Int, (i, j) ∈ offsets ∧
      0 ≤ x + i ∧ x + i < width ∧ 0 ≤ y + j ∧ y + j < height ∧
      tileAt? t (y + j) (x + i) = some cn ∧ ∃ a b d : Int, cn = Cell.Life a b d := by
  unfold lifeNeighborScan at h
  refine optFoldl_pres _
    (fun z => ∀ cn ∈ z.2, ∃ i j : Int, (i, j) ∈ offsets ∧
      0 ≤ x + i ∧ x + i < width ∧ 0 ≤ y + j ∧ y + j < height ∧
      tileAt? t (y + j) (x + i) = some cn ∧ ∃ a b d : Int, cn = Cell.Life a b d)
    offsets (fun p hp z z2 hz hg => ?_) (0, []) (by simp) s h
  by_cases hB : x + p.1 < 0 ∨ x + p.1 ≥ width ∨ y + p.2 < 0 ∨ y + p.2 ≥ height
  · rw [if_pos hB] at hg
    exact Option.some.inj hg ▸ hz
  · rw [if_neg hB] at hg
    push_neg at hB
    match hc : tileAt? t (y + p.2) (x + p.1) with
    | none => rw [hc] at hg; exact Option.noConfusion hg
    | some c =>
      rw [hc] at hg
      simp only [Option.map_some'] at hg
      match c, hg with
      | Cell.Life a b d, hg =>
        rw [← Option.some.inj hg]
        intro cn hcn
        rcases List.mem_append.mp hcn with hold | hnew
        · exact hz cn hold
        · have : cn = Cell.Life a b d := by simpa using hnew
          subst this
          exact ⟨p.1, p.2, by simpa using hp, by omega, by omega, by omega, by omega, hc,
            a, b, d, rfl⟩
      | Cell.Empty, hg => exact Option.some.inj hg ▸ hz
      | Cell.Wall, hg => exact Option.some.inj hg ▸ hz

/-- rowAt_of_fits extracts the storage row behind an in-bounds loop coordinate. -/
theorem rowAt_of_fits {b : Tiles} {width height : Int} (hf : gridFits b width height)
    {x y : Int} (hx : 0 ≤ x) (hxl : x < width) (hy : 0 ≤ y) (hyl : y < height) :
    ∃ row, b[y.toNat]? = some row ∧ x.toNat < row.length := by
  obtain ⟨hlen, hrows⟩ := hf
  have hyn : y.toNat < b.length := by omega
  refine ⟨b[y.toNat], List.getElem?_eq_getElem hyn, ?_⟩
  have := hrows _ (List.getElem_mem hyn)
  omega

/-- chooseFrom_mem notes that a successful `choose` returns an element of the slice. -/
theorem chooseFrom_mem {l : List Cell} {k : Nat} {c : Cell} (h : chooseFrom l k = some c) :
    c ∈ l := by
  unfold chooseFrom at h
  split at h
  · exact Option.noConfusion h
  · exact List.mem_iff_getElem?.mpr ⟨_, h⟩

/-- lifeCellWrite_some shows the `update_life` loop body is panic-free at an in-bounds cell
of a grid that holds its loop bounds. -/
theorem lifeCellWrite_some {t : Tiles} {width height : Int} (hf : gridFits t width height)
    (r : LifeRand) {x y : Int} (hx : 0 ≤ x) (hxl : x < width) (hy : 0 ≤ y) (hyl : y < height) :
    ∃ oc, lifeCellWrite t width height r x y = some oc := by
  obtain ⟨c, hc⟩ := tileAt?_some_of_fits hf hx hxl hy hyl
  obtain ⟨s, hs⟩ := Option.isSome_iff_exists.mp (lifeNeighborScan_some hf x y)
  unfold lifeCellWrite
  split
  · simp_all
  · exact ⟨none, rfl⟩
  · split
    · simp_all
    · split
      · exact ⟨none, rfl⟩
      · split
        · split
          · exact ⟨_, rfl⟩
          · exact ⟨none, rfl⟩
        · exact ⟨none, rfl⟩

/-- lifeCellWrite_write characterizes the only write `update_life` performs: the spawn
branch, which stores the mutated color of a chosen member of the collected neighbor list. -/
theorem lifeCellWrite_write {t : Tiles} {width height : Int} {r : LifeRand} {x y : Int}
    {c : Cell} (h : lifeCellWrite t width height r x y = some (some c)) :
    ∃ s rr gg bb,
      lifeNeighborScan t width height x y = some s ∧ Cell.Life rr gg bb ∈ s.2 ∧
      tileAt? t y x ≠ some Cell.Wall ∧
      c = Cell.Life (mutate_life_cell (rr, gg, bb) (r.mutOff x y)).1
        (mutate_life_cell (rr, gg, bb) (r.mutOff x y)).2.1
        (mutate_life_cell (rr, gg, bb) (r.mutOff x y)).2.2 := by
  unfold lifeCellWrite at h
  split at h
  · exact Option.noConfusion h
  · exact absurd (Option.some.inj h) (by simp)
  · rename_i c0 hwall hread
    split at h
    · exact Option.noConfusion h
    · rename_i s hs
      split at h
      · exact absurd (Option.some.inj h) (by simp)
      · split at h
        · split at h
          · rename_i rr gg bb hch
            exact ⟨s, rr, gg, bb, hs, chooseFrom_mem hch,
              by rw [hread]; intro hcon; exact hwall (Option.some.inj hcon),
              (Option.some.inj (Option.some.inj h)).symm⟩
          · exact absurd (Option.some.inj h) (by simp)
        · exact absurd (Option.some.inj h) (by simp)

/-- lifeCellWrite_wall notes the `Wall` `continue`: a `Wall` cell is never examined and the
loop body writes nothing there. -/
theorem lifeCellWrite_wall {t : Tiles} {width height : Int} (r : LifeRand) {x y : Int}
    (ht : tileAt? t y x = some Cell.Wall) :
    lifeCellWrite t width height r x y = some none := by
  unfold lifeCellWrite
  rw [ht]

/-- mapCellWrite_eq computes the erosion loop body from the neighbor count and current cell. -/
theorem mapCellWrite_eq {t : Tiles} {width height : Int} {x y : Int} {n : Nat} {c : Cell}
    (hn : emptyNeighborScan t width height x y = some n) (hc : tileAt? t y x = some c) :
    mapCellWrite t width height x y =
      some (some (if n > 4 then Cell.Empty else if n < 4 then Cell.Wall else c)) := by
  unfold mapCellWrite
  rw [hn, hc]

/-- update_life_spec runs `writeFold_spec` on the `update_life` loop: the pass succeeds on a
grid that holds its loop bounds, preserves the buffer dimensions, computes every in-bounds
cell as the pure function `resolveLife` of the pre-step grid, and leaves any cell outside
the loop ranges untouched. -/
theorem update_life_spec {w : World} (r : LifeRand)
    (hf : gridFits w.tiles w.width w.height) :
    ∃ w2, w.update_life r = some w2 ∧ dimsEq w2.tiles w.tiles ∧
      (∀ x y : Int, 0 ≤ x → x < w.width → 0 ≤ y → y < w.height →
        tileAt? w2.tiles y x = resolveLife w.tiles w.width w.height r x y) ∧
      (∀ x y : Int, ¬ (0 ≤ x ∧ x < w.width ∧ 0 ≤ y ∧ y < w.height) →
        tileAt? w2.tiles y x = tileAt? w.tiles y x) := by
  obtain ⟨t, ht, hdims, hA, hB⟩ :=
    writeFold_spec (fun p => lifeCellWrite w.tiles w.width w.height r p.1 p.2)
      (loopCoords w.width w.height) w.tiles
      (fun p hp => by
        obtain ⟨px, py⟩ := p
        obtain ⟨hx0, hxw, hy0, hyh⟩ := mem_loopCoords.mp hp
        obtain ⟨oc, hoc⟩ := lifeCellWrite_some hf r hx0 hxw hy0 hyh
        exact ⟨oc, hoc, fun c _ => ⟨hy0, hx0, rowAt_of_fits hf hx0 hxw hy0 hyh⟩⟩)
  refine ⟨{ w with tiles := t }, ?_, hdims, ?_, ?_⟩
  · unfold World.update_life
    rw [ht]
    rfl
  · intro x y hx0 hxw hy0 hyh
    have hmem : (x, y) ∈ loopCoords w.width w.height :=
      mem_loopCoords.mpr ⟨hx0, hxw, hy0, hyh⟩
    unfold resolveLife
    match hlc : lifeCellWrite w.tiles w.width w.height r x y with
    | some (some c) => exact hA x y c hmem hlc
    | some none => exact hB x y (Or.inr hlc)
    | none =>
      obtain ⟨oc, hoc⟩ := lifeCellWrite_some hf r hx0 hxw hy0 hyh
      rw [hlc] at hoc
      exact Option.noConfusion hoc
  · intro x y hout
    exact hB x y (Or.inl fun hmem => hout (mem_loopCoords.mp hmem))

/-- gridFits_new_buffer records that the freshly allocated `CELLS_WIDTH × CELLS_HEIGHT`
buffer of `update_map_iteration` holds the loop bounds of a reachable world. -/
theorem gridFits_new_buffer {width height : Int} (hw : width = CELLS_WIDTH)
    (hh : height = CELLS_HEIGHT) :
    gridFits (List.replicate CELLS_WIDTH.toNat (List.replicate CELLS_HEIGHT.toNat Cell.Empty))
      width height := by
  constructor
  · rw [List.length_replicate, hh]
    decide
  · intro row hrow
    rw [List.eq_of_mem_replicate hrow, List.length_replicate, hw]
    decide

/-- update_map_spec runs `writeFold_spec` on the `update_map_iteration` loop over its fresh
constant-size buffer: on a reachable world the pass succeeds, the output has the same
dimensions as the input grid, and every cell is the pure function `resolveMap` of the
pre-step grid. -/
theorem update_map_spec {w : World} (hd : reachableDims w) :
    ∃ w2, w.update_map_iteration = some w2 ∧ dimsEq w2.tiles w.tiles ∧
      (∀ x y : Int, 0 ≤ x → x < w.width → 0 ≤ y → y < w.height →
        tileAt? w2.tiles y x = resolveMap w.tiles w.width w.height x y) := by
  obtain ⟨hw, hh, hlen, hrows⟩ := hd
  have hf : gridFits w.tiles w.width w.height := by
    refine ⟨by rw [hh, hlen]; decide, fun row hrow => ?_⟩
    rw [hrows row hrow, hw]
    decide
  have hfb : gridFits
      (List.replicate CELLS_WIDTH.toNat (List.replicate CELLS_HEIGHT.toNat Cell.Empty))
      w.width w.height := gridFits_new_buffer hw hh
  obtain ⟨t, ht, hdims, hA, hB⟩ :=
    writeFold_spec (fun p => mapCellWrite w.tiles w.width w.height p.1 p.2)
      (loopCoords w.width w.height)
      (List.replicate CELLS_WIDTH.toNat (List.replicate CELLS_HEIGHT.toNat Cell.Empty))
      (fun p hp => by
        obtain ⟨px, py⟩ := p
        obtain ⟨hx0, hxw, hy0, hyh⟩ := mem_loopCoords.mp hp
        obtain ⟨c, hc⟩ := tileAt?_some_of_fits hf hx0 hxw hy0 hyh
        obtain ⟨n, hn⟩ := Option.isSome_iff_exists.mp (emptyNeighborScan_some hf px py)
        exact ⟨_, mapCellWrite_eq hn hc,
          fun c2 _ => ⟨hy0, hx0, rowAt_of_fits hfb hx0 hxw hy0 hyh⟩⟩)
  have hdims2 : dimsEq t w.tiles := by
    refine dimsEq_trans hdims ⟨?_, ?_⟩
    · rw [List.length_replicate, hlen]
    · intro i
      by_cases hi : i < CELLS_WIDTH.toNat
      · rw [List.getElem?_eq_getElem (by rw [List.length_replicate]; exact hi),
          List.getElem?_eq_getElem (by rw [hlen]; exact hi)]
        simp only [Option.map_some', List.getElem_replicate, List.length_replicate]
        rw [hrows _ (List.getElem_mem (by rw [hlen]; exact hi))]
      · rw [List.getElem?_eq_none (by rw [List.length_replicate]; omega),
          List.getElem?_eq_none (by rw [hlen]; omega)]
  refine ⟨{ w with tiles := t }, ?_, hdims2, ?_⟩
  · unfold World.update_map_iteration
    rw [ht]
    rfl
  · intro x y hx0 hxw hy0 hyh
    have hmem : (x, y) ∈ loopCoords w.width w.height :=
      mem_loopCoords.mpr ⟨hx0, hxw, hy0, hyh⟩
    obtain ⟨c, hc⟩ := tileAt?_some_of_fits hf hx0 hxw hy0 hyh
    obtain ⟨n, hn⟩ := Option.isSome_iff_exists.mp (emptyNeighborScan_some hf x y)
    have heq := mapCellWrite_eq hn hc
    unfold resolveMap
    rw [heq]
    exact hA x y _ hmem heq

/-- blockIndexBound bounds a block-base-plus-offset index by the covered extent. -/
theorem blockIndexBound {bx i wq zn : Nat} (hbx : bx < wq) (hi : i < zn) :
    bx * zn + i < wq * zn := by
  calc bx * zn + i < bx * zn + zn := by omega
    _ = (bx + 1) * zn := by ring
    _ ≤ wq * zn := Nat.mul_le_mul_right zn (Nat.succ_le_of_lt hbx)

/-- mem_seedWrites characterizes the cells covered by the zoom-block reseed loops: exactly
the rectangle `[0, width/zoom*zoom) × [0, height/zoom*zoom)` (integer division), which is the
whole grid iff `zoom` divides both dimensions. -/
theorem mem_seedWrites {width height zoom : Int} (hz : 1 ≤ zoom) {x y : Int} :
    (x, y) ∈ seedWrites width height zoom ↔
      0 ≤ x ∧ x < width / zoom * zoom ∧ 0 ≤ y ∧ y < height / zoom * zoom := by
  have hznz : (zoom.toNat : Int) = zoom := by omega
  unfold seedWrites
  constructor
  · intro h
    obtain ⟨bx, hbx, h1⟩ := List.mem_flatMap.mp h
    obtain ⟨byy, hbyy, h2⟩ := List.mem_flatMap.mp h1
    obtain ⟨i, hi, h3⟩ := List.mem_flatMap.mp h2
    obtain ⟨j, hj, heq⟩ := List.mem_map.mp h3
    have hbx2 := List.mem_range.mp hbx
    have hbyy2 := List.mem_range.mp hbyy
    have hi2 := List.mem_range.mp hi
    have hj2 := List.mem_range.mp hj
    have hxe : ((bx * zoom.toNat + i : Nat) : Int) = x := congrArg Prod.fst heq
    have hye : ((byy * zoom.toNat + j : Nat) : Int) = y := congrArg Prod.snd heq
    have hwq : (((width / zoom).toNat : Nat) : Int) = width / zoom := by omega
    have hhq : (((height / zoom).toNat : Nat) : Int) = height / zoom := by omega
    have hxn : bx * zoom.toNat + i < (width / zoom).toNat * zoom.toNat :=
      blockIndexBound hbx2 hi2
    have hyn : byy * zoom.toNat + j < (height / zoom).toNat * zoom.toNat :=
      blockIndexBound hbyy2 hj2
    have hxlt : x < width / zoom * zoom := by
      calc x = ((bx * zoom.toNat + i : Nat) : Int) := hxe.symm
        _ < (((width / zoom).toNat * zoom.toNat : Nat) : Int) := Int.ofNat_lt.mpr hxn
        _ = width / zoom * zoom := by push_cast [hwq, hznz]; ring
    have hylt : y < height / zoom * zoom := by
      calc y = ((byy * zoom.toNat + j : Nat) : Int) := hye.symm
        _ < (((height / zoom).toNat * zoom.toNat : Nat) : Int) := Int.ofNat_lt.mpr hyn
        _ = height / zoom * zoom := by push_cast [hhq, hznz]; ring
    exact ⟨by omega, hxlt, by omega, hylt⟩
  · rintro ⟨hx0, hxlt, hy0, hylt⟩
    have hzn : 0 < zoom.toNat := by omega
    have hwqpos : 0 < width / zoom := by
      by_contra hle
      push_neg at hle
      have : width / zoom * zoom ≤ 0 := mul_nonpos_of_nonpos_of_nonneg hle (by omega)
      omega
    have hhqpos : 0 < height / zoom := by
      by_contra hle
      push_neg at hle
      have : height / zoom * zoom ≤ 0 := mul_nonpos_of_nonpos_of_nonneg hle (by omega)
      omega
    have hwq : (((width / zoom).toNat : Nat) : Int) = width / zoom := by omega
    have hhq : (((height / zoom).toNat : Nat) : Int) = height / zoom := by omega
    have hxcast : (((width / zoom).toNat * zoom.toNat : Nat) : Int) = width / zoom * zoom := by
      push_cast [hwq, hznz]
      ring
    have hycast : (((height / zoom).toNat * zoom.toNat : Nat) : Int) = height / zoom * zoom := by
      push_cast [hhq, hznz]
      ring
    have hxlt2 : x.toNat < (width / zoom).toNat * zoom.toNat := by
      rw [← hxcast] at hxlt
      omega
    have hylt2 : y.toNat < (height / zoom).toNat * zoom.toNat := by
      rw [← hycast] at hylt
      omega
    refine List.mem_flatMap.mpr ⟨x.toNat / zoom.toNat,
      List.mem_range.mpr ((Nat.div_lt_iff_lt_mul hzn).mpr hxlt2), ?_⟩
    refine List.mem_flatMap.mpr ⟨y.toNat / zoom.toNat,
      List.mem_range.mpr ((Nat.div_lt_iff_lt_mul hzn).mpr hylt2), ?_⟩
    refine List.mem_flatMap.mpr ⟨x.toNat % zoom.toNat,
      List.mem_range.mpr (Nat.mod_lt _ hzn), ?_⟩
    refine List.mem_map.mpr ⟨y.toNat % zoom.toNat,
      List.mem_range.mpr (Nat.mod_lt _ hzn), ?_⟩
    have hxid : x.toNat / zoom.toNat * zoom.toNat + x.toNat % zoom.toNat = x.toNat := by
      rw [mul_comm]
      exact Nat.div_add_mod x.toNat zoom.toNat
    have hyid : y.toNat / zoom.toNat * zoom.toNat + y.toNat % zoom.toNat = y.toNat := by
      rw [mul_comm]
      exact Nat.div_add_mod y.toNat zoom.toNat
    refine Prod.ext ?_ ?_
    · show ((x.toNat / zoom.toNat * zoom.toNat + x.toNat % zoom.toNat : Nat) : Int) = x
      rw [hxid]
      omega
    · show ((y.toNat / zoom.toNat * zoom.toNat + y.toNat % zoom.toNat : Nat) : Int) = y
      rw [hyid]
      omega

/-- update_seed_spec characterizes one reseed pass for `zoom ≥ 1`: it succeeds, keeps the
grid dimensions, overwrites every covered cell with its block draw decision (`Empty` iff the
draw exceeds `density`), and leaves the cells outside the covered rectangle untouched. -/
theorem update_seed_spec {w : World} (s : SeedRand) (hz : 1 ≤ w.zoom)
    (hf : gridFits w.tiles w.width w.height) :
    ∃ w2, w.update_seed s = some w2 ∧ dimsEq w2.tiles w.tiles ∧
      (∀ x y : Int, 0 ≤ x → x < w.width / w.zoom * w.zoom → 0 ≤ y →
          y < w.height / w.zoom * w.zoom →
        tileAt? w2.tiles y x =
          some (if s.draw (x / w.zoom) (y / w.zoom) > w.density then Cell.Empty
            else Cell.Wall)) ∧
      (∀ x y : Int, ¬ (0 ≤ x ∧ x < w.width / w.zoom * w.zoom ∧ 0 ≤ y ∧
          y < w.height / w.zoom * w.zoom) →
        tileAt? w2.tiles y x = tileAt? w.tiles y x) := by
  have hdivw : w.width / w.zoom * w.zoom ≤ w.width := Int.ediv_mul_le w.width (by omega)
  have hdivh : w.height / w.zoom * w.zoom ≤ w.height := Int.ediv_mul_le w.height (by omega)
  obtain ⟨t, ht, hdims, hA, hB⟩ := writeFold_spec
    (fun p => some (some (if s.draw (p.1 / w.zoom) (p.2 / w.zoom) > w.density then Cell.Empty
      else Cell.Wall)))
    (seedWrites w.width w.height w.zoom) w.tiles
    (fun p hp => by
      obtain ⟨px, py⟩ := p
      obtain ⟨hx0, hxw, hy0, hyh⟩ := (mem_seedWrites hz).mp hp
      exact ⟨_, rfl, fun c _ => ⟨hy0, hx0,
        rowAt_of_fits hf hx0 (lt_of_lt_of_le hxw hdivw) hy0 (lt_of_lt_of_le hyh hdivh)⟩⟩)
  refine ⟨{ w with tiles := t }, ?_, hdims, ?_, ?_⟩
  · unfold World.update_seed
    rw [if_neg (by omega : ¬ w.zoom = 0), ht]
    rfl
  · intro x y hx0 hxw hy0 hyh
    exact hA x y _ ((mem_seedWrites hz).mpr ⟨hx0, hxw, hy0, hyh⟩) rfl
  · intro x y hout
    exact hB x y (Or.inl fun hmem => hout ((mem_seedWrites hz).mp hmem))

/-! Claim theorems. -/

/-- C4 counterexample: the offsets (0,0,0) all lie in `[-2,2]`, yet on input `(0,0,0)` (a
legal Life color: the click handler draws channels from `0..=255`) the output channel is 0,
which is outside `(0, 255]`; so "every output channel lies in (0,255]" fails as stated. -/
theorem mutate_life_cell_zero_cex :
    ((-2 : Int) ≤ 0 ∧ (0 : Int) ≤ 2) ∧
    mutate_life_cell (0, 0, 0) (0, 0, 0) = (0, 0, 0) ∧
    ¬ (0 < (mutate_life_cell (0, 0, 0) (0, 0, 0)).1 ∧
        (mutate_life_cell (0, 0, 0) (0, 0, 0)).1 ≤ 255) := by
  exact ⟨by decide, by decide, by decide⟩

/-- C4 (amended): for offsets drawn in `[-2,2]`, `mutate_life_cell` applies a channel offset
exactly when the shifted value stays in `(0,255]` and otherwise leaves the channel unchanged;
consequently every output channel differs from the input by at most 2, and whenever an input
channel lies in `(0,255]` the corresponding output channel lies in `(0,255]` (the original
unconditional `(0,255]` range claim fails for inputs outside that range, see the
counterexample). -/
theorem mutate_life_cell_bounds (rgb off : Int × Int × Int)
    (h1 : -2 ≤ off.1 ∧ off.1 ≤ 2) (h2 : -2 ≤ off.2.1 ∧ off.2.1 ≤ 2)
    (h3 : -2 ≤ off.2.2 ∧ off.2.2 ≤ 2) :
    (((mutate_life_cell rgb off).1 - rgb.1).natAbs ≤ 2 ∧
      ((mutate_life_cell rgb off).2.1 - rgb.2.1).natAbs ≤ 2 ∧
      ((mutate_life_cell rgb off).2.2 - rgb.2.2).natAbs ≤ 2) ∧
    ((0 < rgb.1 + off.1 ∧ rgb.1 + off.1 ≤ 255 → (mutate_life_cell rgb off).1 = rgb.1 + off.1) ∧
      (¬ (0 < rgb.1 + off.1 ∧ rgb.1 + off.1 ≤ 255) → (mutate_life_cell rgb off).1 = rgb.1)) ∧
    ((0 < rgb.2.1 + off.2.1 ∧ rgb.2.1 + off.2.1 ≤ 255 →
        (mutate_life_cell rgb off).2.1 = rgb.2.1 + off.2.1) ∧
      (¬ (0 < rgb.2.1 + off.2.1 ∧ rgb.2.1 + off.2.1 ≤ 255) →
        (mutate_life_cell rgb off).2.1 = rgb.2.1)) ∧
    ((0 < rgb.2.2 + off.2.2 ∧ rgb.2.2 + off.2.2 ≤ 255 →
        (mutate_life_cell rgb off).2.2 = rgb.2.2 + off.2.2) ∧
      (¬ (0 < rgb.2.2 + off.2.2 ∧ rgb.2.2 + off.2.2 ≤ 255) →
        (mutate_life_cell rgb off).2.2 = rgb.2.2)) ∧
    (0 < rgb.1 → rgb.1 ≤ 255 →
      0 < (mutate_life_cell rgb off).1 ∧ (mutate_life_cell rgb off).1 ≤ 255) ∧
    (0 < rgb.2.1 → rgb.2.1 ≤ 255 →
      0 < (mutate_life_cell rgb off).2.1 ∧ (mutate_life_cell rgb off).2.1 ≤ 255) ∧
    (0 < rgb.2.2 → rgb.2.2 ≤ 255 →
      0 < (mutate_life_cell rgb off).2.2 ∧ (mutate_life_cell rgb off).2.2 ≤ 255) := by
  unfold mutate_life_cell
  dsimp only
  split_ifs <;>
    refine ⟨⟨by omega, by omega, by omega⟩, ⟨fun hc => by omega, fun hc => by omega⟩,
      ⟨fun hc => by omega, fun hc => by omega⟩, ⟨fun hc => by omega, fun hc => by omega⟩,
      fun hc1 hc2 => by omega, fun hc1 hc2 => by omega, fun hc1 hc2 => by omega⟩

/-- C4 witness: the amended theorem applied at a concrete color and offset triple. -/
theorem mutate_life_cell_bounds_witness :
    ((-2 : Int) ≤ 2 ∧ (2 : Int) ≤ 2) ∧
    ((mutate_life_cell (10, 1, 255) (2, -2, 1)).1 - 10).natAbs ≤ 2 :=
  ⟨by decide,
    (mutate_life_cell_bounds (10, 1, 255) (2, -2, 1) (by decide) (by decide) (by decide)).1.1⟩

/-- cexAgent sits at `x = width − 0.3` (width 300) with positive x-velocity 0.1 < 0.3. -/
def cexAgent : Agent :=
  { x := ((300 : Nat) : ℚ) - mkRat 3 10, y := 5, rgb := (0, 0, 0),
    velocity := (mkRat 1 10, 0) }

/-- C8 counterexample: an agent at `x = width − 0.3` whose positive x-velocity is only 0.1
does not reach the boundary in one step, so `Agent::update` leaves the x-velocity positive —
the claim "one call leaves the agent with a negative x-velocity component" fails as stated
(it needs velocity at least 0.3). -/
theorem agent_small_velocity_cex :
    cexAgent.x = ((300 : Nat) : ℚ) - mkRat 3 10 ∧
    0 < cexAgent.velocity.1 ∧
    (cexAgent.update 300 300).velocity.1 = cexAgent.velocity.1 ∧
    ¬ ((cexAgent.update 300 300).velocity.1 < 0) := by
  have h1 : (mkRat 3 10 : ℚ) = 3 / 10 := by rw [Rat.mkRat_eq_div]; norm_num
  have h2 : (mkRat 1 10 : ℚ) = 1 / 10 := by rw [Rat.mkRat_eq_div]; norm_num
  refine ⟨rfl, by decide, ?_, ?_⟩
  · show (if (cexAgent.x + cexAgent.velocity.1) * AGENT_SPEED ≥ ((300 : Nat) : ℚ) ∨
        (cexAgent.x + cexAgent.velocity.1) * AGENT_SPEED ≤ 0
      then cexAgent.velocity.1 * (-1) else cexAgent.velocity.1) = cexAgent.velocity.1
    rw [if_neg]
    show ¬ ((((300 : Nat) : ℚ) - mkRat 3 10 + mkRat 1 10) * AGENT_SPEED ≥ ((300 : Nat) : ℚ) ∨
      (((300 : Nat) : ℚ) - mkRat 3 10 + mkRat 1 10) * AGENT_SPEED ≤ 0)
    rw [h1, h2]
    unfold AGENT_SPEED
    push_neg
    norm_num
  · show ¬ ((if (cexAgent.x + cexAgent.velocity.1) * AGENT_SPEED ≥ ((300 : Nat) : ℚ) ∨
        (cexAgent.x + cexAgent.velocity.1) * AGENT_SPEED ≤ 0
      then cexAgent.velocity.1 * (-1) else cexAgent.velocity.1) < 0)
    rw [if_neg]
    · show ¬ ((mkRat 1 10 : ℚ) < 0)
      decide
    · show ¬ ((((300 : Nat) : ℚ) - mkRat 3 10 + mkRat 1 10) * AGENT_SPEED ≥ ((300 : Nat) : ℚ) ∨
        (((300 : Nat) : ℚ) - mkRat 3 10 + mkRat 1 10) * AGENT_SPEED ≤ 0)
      rw [h1, h2]
      unfold AGENT_SPEED
      push_neg
      norm_num

/-- Agent.update_def spells out the fields produced by one `Agent::update` step. -/
theorem Agent.update_def (b : Agent) (h w : Nat) :
    b.update h w = { b with
      x := (b.x + b.velocity.1) * AGENT_SPEED
      y := (b.y + b.velocity.2) * AGENT_SPEED
      velocity :=
        (if (b.x + b.velocity.1) * AGENT_SPEED ≥ (w : ℚ) ∨
            (b.x + b.velocity.1) * AGENT_SPEED ≤ 0
          then b.velocity.1 * (-1) else b.velocity.1,
         if (b.y + b.velocity.2) * AGENT_SPEED ≥ (h : ℚ) ∨
            (b.y + b.velocity.2) * AGENT_SPEED ≤ 0
          then b.velocity.2 * (-1) else b.velocity.2) } := rfl

/-- C8 (amended): at `x = width − 0.3` a positive x-velocity of at least 0.3 is flipped to
its negation by one update (magnitude unchanged), the following update lands back at
`width − 0.3 ≤ width` and does not flip again; a positive x-velocity below 0.3 never reaches
the boundary and is not flipped (see the counterexample, which refutes the unconditional
claim).  In general each update changes a velocity component only by sign flip, so its
magnitude is constant; the `y` boundary is handled symmetrically. -/
theorem agent_bounce (h w : Nat) (a : Agent) (hw : 1 ≤ w)
    (hx : a.x = (w : ℚ) - mkRat 3 10) (hpos : 0 < a.velocity.1) :
    (mkRat 3 10 ≤ a.velocity.1 →
      (a.update h w).velocity.1 = - a.velocity.1 ∧
      (a.update h w).x = a.x + a.velocity.1 ∧
      (w : ℚ) ≤ (a.update h w).x ∧
      ((a.update h w).update h w).x = (w : ℚ) - mkRat 3 10 ∧
      ((a.update h w).update h w).x ≤ (w : ℚ) ∧
      ((a.update h w).update h w).velocity.1 = - a.velocity.1) ∧
    (a.velocity.1 < mkRat 3 10 → (a.update h w).velocity.1 = a.velocity.1) ∧
    (∀ b : Agent,
      ((b.update h w).velocity.1 = b.velocity.1 ∨ (b.update h w).velocity.1 = - b.velocity.1) ∧
      ((b.update h w).velocity.2 = b.velocity.2 ∨ (b.update h w).velocity.2 = - b.velocity.2) ∧
      |(b.update h w).velocity.1| = |b.velocity.1| ∧
      |(b.update h w).velocity.2| = |b.velocity.2|) := by
  have hmk : (mkRat 3 10 : ℚ) = 3 / 10 := by rw [Rat.mkRat_eq_div]; norm_num
  have hw1 : (1 : ℚ) ≤ (w : ℚ) := by exact_mod_cast hw
  have hxv : ∀ b : Agent, (b.x + b.velocity.1) * AGENT_SPEED = b.x + b.velocity.1 := by
    intro b
    unfold AGENT_SPEED
    ring
  refine ⟨?_, ?_, ?_⟩
  · intro hv
    rw [hmk] at hx hv
    have hcond1 : (a.x + a.velocity.1) * AGENT_SPEED ≥ (w : ℚ) ∨
        (a.x + a.velocity.1) * AGENT_SPEED ≤ 0 := by
      left
      rw [hxv, hx]
      linarith
    have hv1 : (a.update h w).velocity.1 = - a.velocity.1 := by
      rw [Agent.update_def]
      dsimp only
      rw [if_pos hcond1]
      ring
    have hx1 : (a.update h w).x = a.x + a.velocity.1 := by
      rw [Agent.update_def]
      dsimp only
      exact hxv a
    have hx1b : (w : ℚ) ≤ (a.update h w).x := by
      rw [hx1, hx]
      linarith
    have hx2 : ((a.update h w).update h w).x = (w : ℚ) - 3 / 10 := by
      rw [Agent.update_def ((a.update h w)) h w]
      dsimp only
      rw [hxv, hx1, hv1, hx]
      ring
    have hcond2 : ¬ (((a.update h w).x + (a.update h w).velocity.1) * AGENT_SPEED ≥ (w : ℚ) ∨
        ((a.update h w).x + (a.update h w).velocity.1) * AGENT_SPEED ≤ 0) := by
      rw [hxv, hx1, hv1, hx]
      push_neg
      constructor
      · linarith
      · linarith
    have hv2 : ((a.update h w).update h w).velocity.1 = - a.velocity.1 := by
      rw [Agent.update_def ((a.update h w)) h w]
      dsimp only
      rw [if_neg hcond2, hv1]
    exact ⟨hv1, hx1, hx1b, by rw [hx2, hmk], by rw [hx2]; linarith, hv2⟩
  · intro hv
    rw [hmk] at hx hv
    have hcond1 : ¬ ((a.x + a.velocity.1) * AGENT_SPEED ≥ (w : ℚ) ∨
        (a.x + a.velocity.1) * AGENT_SPEED ≤ 0) := by
      rw [hxv, hx]
      push_neg
      constructor
      · linarith
      · linarith
    rw [Agent.update_def]
    dsimp only
    rw [if_neg hcond1]
  · intro b
    rw [Agent.update_def]
    dsimp only
    refine ⟨?_, ?_, ?_, ?_⟩
    · split_ifs
      · right
        ring
      · left
        rfl
    · split_ifs
      · right
        ring
      · left
        rfl
    · split_ifs
      · rw [mul_neg_one, abs_neg]
      · rfl
    · split_ifs
      · rw [mul_neg_one, abs_neg]
      · rfl

/-- wAgent is a concrete agent at `x = 300 − 0.3` with x-velocity 0.5 ≥ 0.3. -/
def wAgent : Agent :=
  { x := ((300 : Nat) : ℚ) - mkRat 3 10, y := 5, rgb := (0, 0, 0),
    velocity := (mkRat 1 2, 0) }

/-- C8 witness: the amended theorem applied to `wAgent` on the 300 × 300 grid. -/
theorem agent_bounce_witness :
    (1 ≤ 300 ∧ (0 : ℚ) < mkRat 1 2 ∧ mkRat 3 10 ≤ mkRat 1 2) ∧
    (wAgent.update 300 300).velocity.1 = - wAgent.velocity.1 :=
  ⟨⟨by decide, by decide, by decide⟩,
    ((agent_bounce 300 300 wAgent (by decide) rfl (by decide)).1 (by decide)).1⟩

/-- gridFits_of_reachable derives the loop-bound fit from the reachable dimensions. -/
theorem gridFits_of_reachable {w : World} (hd : reachableDims w) :
    gridFits w.tiles w.width w.height := by
  obtain ⟨hw, hh, hlen, hrows⟩ := hd
  refine ⟨by rw [hh, hlen]; decide, fun row hrow => ?_⟩
  rw [hrows row hrow, hw]
  decide

/-- reachableDims_new records that the constructed world has the reachable dimensions. -/
theorem reachableDims_new : reachableDims World.new := by
  refine ⟨rfl, rfl, List.length_replicate .., fun row hrow => ?_⟩
  rw [List.eq_of_mem_replicate hrow]
  exact List.length_replicate ..

/-- setTile?_inv inverts a successful write into its in-bounds conditions and result. -/
theorem setTile?_inv {t : Tiles} {y x : Int} {c : Cell} {t2 : Tiles}
    (h : setTile? t y x c = some t2) :
    0 ≤ y ∧ 0 ≤ x ∧ ∃ row, t[y.toNat]? = some row ∧ x.toNat < row.length ∧
      t2 = t.set y.toNat (row.set x.toNat c) := by
  unfold setTile? at h
  split at h
  · rename_i hyx
    split at h
    · rename_i row hrow
      split at h
      · rename_i hxlt
        exact ⟨hyx.1, hyx.2, row, hrow, hxlt, (Option.some.inj h).symm⟩
      · exact Option.noConfusion h
    · exact Option.noConfusion h
  · exact Option.noConfusion h

/-- mutate_abs_le bounds the per-channel change of `mutate_life_cell` by the offset bound. -/
theorem mutate_abs_le (rgb off : Int × Int × Int)
    (h1 : -2 ≤ off.1 ∧ off.1 ≤ 2) (h2 : -2 ≤ off.2.1 ∧ off.2.1 ≤ 2)
    (h3 : -2 ≤ off.2.2 ∧ off.2.2 ≤ 2) :
    ((mutate_life_cell rgb off).1 - rgb.1).natAbs ≤ 2 ∧
    ((mutate_life_cell rgb off).2.1 - rgb.2.1).natAbs ≤ 2 ∧
    ((mutate_life_cell rgb off).2.2 - rgb.2.2).natAbs ≤ 2 := by
  unfold mutate_life_cell
  dsimp only
  split_ifs <;> exact ⟨by omega, by omega, by omega⟩

/-- mutate_range notes `mutate_life_cell` keeps channels inside `[0, 255]` for any offsets:
a channel either stays put or moves to a value in `(0, 255]`. -/
theorem mutate_range (rgb off : Int × Int × Int) (h : inRange255 rgb) :
    inRange255 (mutate_life_cell rgb off) := by
  obtain ⟨a1, a2, a3, a4, a5, a6⟩ := h
  unfold mutate_life_cell inRange255
  dsimp only
  split_ifs <;> exact ⟨by omega, by omega, by omega, by omega, by omega, by omega⟩

/-- wLifeEx is a 2 × 2 world with one Life cell, used by witnesses. -/
def wLifeEx : World :=
  { density := 0, width := 2, height := 2, scale := 2, zoom := 1,
    tiles := [[Cell.Empty, Cell.Empty], [Cell.Empty, Cell.Life 10 20 255]] }

/-- rLifeEx is an oracle that always survives, always spawns, picks index 0, and offsets
colors by `(1, -2, 2)`. -/
def rLifeEx : LifeRand :=
  { willSurvive := fun _ _ => true, willSpawn := fun _ _ => true,
    pick := fun _ _ => 0, mutOff := fun _ _ => (1, -2, 2) }

/-- sHalf is a seed oracle whose every draw is 1/2. -/
def sHalf : SeedRand := ⟨fun _ _ => mkRat 1 2⟩

/-- C1: under the Life-with-mutation step no cell is ever set to Empty: on a grid holding
its loop bounds the step succeeds, and at every in-bounds cell a Wall stays Wall (it is
`continue`d over and carried from the cloned buffer), a Life cell is still Life (the death
branch performs no state change, and the only write stores a Life value), and a cell can be
Empty afterwards only if it already was Empty. -/
theorem update_life_never_kills (w : World) (r : LifeRand)
    (hf : gridFits w.tiles w.width w.height) :
    ∃ w2, w.update_life r = some w2 ∧
      ∀ x y c, 0 ≤ x → x < w.width → 0 ≤ y → y < w.height →
        tileAt? w.tiles y x = some c →
        ∃ c2, tileAt? w2.tiles y x = some c2 ∧
          (c = Cell.Wall → c2 = Cell.Wall) ∧
          (∀ a b d, c = Cell.Life a b d → ∃ a2 b2 d2, c2 = Cell.Life a2 b2 d2) ∧
          (c2 = Cell.Empty → c = Cell.Empty) := by
  obtain ⟨w2, hupd, hdims, hA, hB⟩ := update_life_spec r hf
  refine ⟨w2, hupd, fun x y c hx0 hxw hy0 hyh hc => ?_⟩
  have hval := hA x y hx0 hxw hy0 hyh
  unfold resolveLife at hval
  match hlc : lifeCellWrite w.tiles w.width w.height r x y with
  | none =>
    obtain ⟨oc, hoc⟩ := lifeCellWrite_some hf r hx0 hxw hy0 hyh
    rw [hlc] at hoc
    exact Option.noConfusion hoc
  | some none =>
    rw [hlc] at hval
    exact ⟨c, by rw [hval]; exact hc, fun hh => hh, fun a b d hh => ⟨a, b, d, hh⟩, fun hh => hh⟩
  | some (some c2) =>
    rw [hlc] at hval
    obtain ⟨s, rr, gg, bb, hs, hmem, hnw, hceq⟩ := lifeCellWrite_write hlc
    refine ⟨c2, hval, ?_, ?_, ?_⟩
    · intro hcw
      exact absurd (hcw ▸ hc) hnw
    · intro a b d _
      exact ⟨_, _, _, hceq⟩
    · intro hce
      rw [hceq] at hce
      exact absurd hce (by simp)

/-- C1 witness: the theorem applied to the concrete 2 × 2 world `wLifeEx`. -/
theorem update_life_never_kills_witness :
    gridFits wLifeEx.tiles wLifeEx.width wLifeEx.height ∧
    ∃ w2, wLifeEx.update_life rLifeEx = some w2 ∧
      ∀ x y c, 0 ≤ x → x < wLifeEx.width → 0 ≤ y → y < wLifeEx.height →
        tileAt? wLifeEx.tiles y x = some c →
        ∃ c2, tileAt? w2.tiles y x = some c2 ∧
          (c = Cell.Wall → c2 = Cell.Wall) ∧
          (∀ a b d, c = Cell.Life a b d → ∃ a2 b2 d2, c2 = Cell.Life a2 b2 d2) ∧
          (c2 = Cell.Empty → c = Cell.Empty) :=
  ⟨⟨by decide, by decide⟩, update_life_never_kills wLifeEx rLifeEx ⟨by decide, by decide⟩⟩

/-- C2: one erosion pass computes every in-bounds cell from its clipped count `n` of Empty
8-neighbors: Empty when `n > 4`, Wall when `n < 4`, and the cell's current state when
`n = 4`, whatever that state is. -/
theorem update_map_iteration_threshold (w : World) (hd : reachableDims w) :
    ∃ w2, w.update_map_iteration = some w2 ∧
      ∀ x y c n, 0 ≤ x → x < w.width → 0 ≤ y → y < w.height →
        tileAt? w.tiles y x = some c →
        emptyNeighborScan w.tiles w.width w.height x y = some n →
        tileAt? w2.tiles y x =
          some (if n > 4 then Cell.Empty else if n < 4 then Cell.Wall else c) := by
  obtain ⟨w2, hupd, hdims, hA⟩ := update_map_spec hd
  refine ⟨w2, hupd, fun x y c n hx0 hxw hy0 hyh hc hn => ?_⟩
  have hval := hA x y hx0 hxw hy0 hyh
  unfold resolveMap at hval
  rw [mapCellWrite_eq hn hc] at hval
  exact hval

/-- C2 witness: the theorem applied to the fresh all-Empty 300 × 300 world at cell (0,0),
whose corner has exactly 3 Empty neighbors, hence becomes Wall. -/
theorem update_map_iteration_threshold_witness :
    reachableDims World.new ∧
    tileAt? World.new.tiles 0 0 = some Cell.Empty ∧
    emptyNeighborScan World.new.tiles World.new.width World.new.height 0 0 = some 3 ∧
    ∃ w2, World.new.update_map_iteration = some w2 ∧
      tileAt? w2.tiles 0 0 =
        some (if 3 > 4 then Cell.Empty else if 3 < 4 then Cell.Wall else Cell.Empty) := by
  obtain ⟨w2, h1, h2⟩ := update_map_iteration_threshold World.new reachableDims_new
  exact ⟨reachableDims_new, by decide, by decide, w2, h1,
    h2 0 0 Cell.Empty 3 (by decide) (by decide) (by decide) (by decide) (by decide) (by decide)⟩

/-- C3: both full-grid steps are double-buffered: on a reachable world each succeeds, the
output grid has exactly the input's dimensions (row count and every row length), and every
in-bounds output cell equals a pure function (`resolveLife` / `resolveMap`) of the pre-step
grid alone, so values written during the pass never influence any other cell. -/
theorem step_double_buffered (w : World) (r : LifeRand) (hd : reachableDims w) :
    (∃ w1, w.update_life r = some w1 ∧
      w1.tiles.length = w.tiles.length ∧
      (∀ i : Nat, (w1.tiles[i]?).map List.length = (w.tiles[i]?).map List.length) ∧
      ∀ x y : Int, 0 ≤ x → x < w.width → 0 ≤ y → y < w.height →
        tileAt? w1.tiles y x = resolveLife w.tiles w.width w.height r x y) ∧
    (∃ w2, w.update_map_iteration = some w2 ∧
      w2.tiles.length = w.tiles.length ∧
      (∀ i : Nat, (w2.tiles[i]?).map List.length = (w.tiles[i]?).map List.length) ∧
      ∀ x y : Int, 0 ≤ x → x < w.width → 0 ≤ y → y < w.height →
        tileAt? w2.tiles y x = resolveMap w.tiles w.width w.height x y) := by
  constructor
  · obtain ⟨w1, hupd, hdims, hA, hB⟩ := update_life_spec r (gridFits_of_reachable hd)
    exact ⟨w1, hupd, hdims.1, hdims.2, hA⟩
  · obtain ⟨w2, hupd, hdims, hA⟩ := update_map_spec hd
    exact ⟨w2, hupd, hdims.1, hdims.2, hA⟩

/-- C3 witness: the theorem applied to the fresh 300 × 300 world. -/
theorem step_double_buffered_witness :
    reachableDims World.new ∧
    ∃ w1, World.new.update_life rLifeEx = some w1 ∧
      w1.tiles.length = World.new.tiles.length := by
  obtain ⟨⟨w1, h1, h2, _, _⟩, _⟩ := step_double_buffered World.new rLifeEx reachableDims_new
  exact ⟨reachableDims_new, w1, h1, h2⟩

/-- C9: on a reachable world (dimensions as constructed, zoom at least 1) all three grid
passes are total: every index they compute is in bounds, so the `none` (out-of-bounds panic)
branch of the embedded indexing is never taken and each update returns `some`. -/
theorem update_indices_total (w : World) (r : LifeRand) (s : SeedRand)
    (hd : reachableDims w) (hz : 1 ≤ w.zoom) :
    (∃ w1, w.update_life r = some w1) ∧
    (∃ w2, w.update_map_iteration = some w2) ∧
    (∃ w3, w.update_seed s = some w3) := by
  have hf := gridFits_of_reachable hd
  obtain ⟨w1, h1, -⟩ := update_life_spec r hf
  obtain ⟨w2, h2, -⟩ := update_map_spec hd
  obtain ⟨w3, h3, -⟩ := update_seed_spec s hz hf
  exact ⟨⟨w1, h1⟩, ⟨w2, h2⟩, ⟨w3, h3⟩⟩

/-- C9 witness: the theorem applied to the fresh 300 × 300 world at zoom 1. -/
theorem update_indices_total_witness :
    (reachableDims World.new ∧ 1 ≤ World.new.zoom) ∧
    ∃ w1, World.new.update_life rLifeEx = some w1 :=
  ⟨⟨reachableDims_new, by decide⟩,
    (update_indices_total World.new rLifeEx sHalf reachableDims_new (by decide)).1⟩

/-- wSeedCex is a 1 × 1 world with density exactly 0. -/
def wSeedCex : World :=
  { density := 0, width := 1, height := 1, scale := 2, zoom := 1, tiles := [[Cell.Empty]] }

/-- sZero is a seed oracle whose every draw is exactly 0 (a legal value of `[0,1)`). -/
def sZero : SeedRand := ⟨fun _ _ => 0⟩

/-- C5 counterexample: with density 0 (which satisfies `density ≤ 0`) and a per-cell draw of
exactly 0 — a legal value of the `[0,1)` distribution — the test `draw > density` is false
and the cell is set to Wall, so reseeding does not produce an all-Empty grid. -/
theorem update_seed_density_zero_cex :
    wSeedCex.density ≤ 0 ∧ (0 ≤ sZero.draw 0 0 ∧ sZero.draw 0 0 < 1) ∧
    (wSeedCex.update_seed sZero).map (fun w2 => w2.tiles) = some [[Cell.Wall]] ∧
    tileAt? [[Cell.Wall]] 0 0 = some Cell.Wall ∧ Cell.Wall ≠ Cell.Empty := by
  exact ⟨by decide, ⟨by decide, by decide⟩, by decide, by decide, by decide⟩

/-- C5 (amended): for per-cell draws in `[0,1)` at zoom 1, reseeding with density strictly
below 0 produces an all-Empty grid and reseeding with density at least 1 produces an
all-Wall grid; at density exactly 0 a draw of exactly 0 produces a Wall (see the
counterexample), so the original `density ≤ 0` bound must be strict. -/
theorem update_seed_extreme_density (w : World) (s : SeedRand)
    (hz : w.zoom = 1) (hf : gridFits w.tiles w.width w.height)
    (hdraw : ∀ bx byy : Int, 0 ≤ s.draw bx byy ∧ s.draw bx byy < 1) :
    (w.density < 0 → ∃ w2, w.update_seed s = some w2 ∧
      ∀ x y : Int, 0 ≤ x → x < w.width → 0 ≤ y → y < w.height →
        tileAt? w2.tiles y x = some Cell.Empty) ∧
    (1 ≤ w.density → ∃ w2, w.update_seed s = some w2 ∧
      ∀ x y : Int, 0 ≤ x → x < w.width → 0 ≤ y → y < w.height →
        tileAt? w2.tiles y x = some Cell.Wall) := by
  obtain ⟨w2, hupd, hdims, hA, hB⟩ := update_seed_spec s (by omega) hf
  rw [hz] at hA
  simp only [Int.ediv_one, mul_one] at hA
  constructor
  · intro hden
    refine ⟨w2, hupd, fun x y hx0 hxw hy0 hyh => ?_⟩
    rw [hA x y hx0 hxw hy0 hyh, if_pos]
    exact lt_of_lt_of_le hden (hdraw x y).1
  · intro hden
    refine ⟨w2, hupd, fun x y hx0 hxw hy0 hyh => ?_⟩
    rw [hA x y hx0 hxw hy0 hyh, if_neg]
    push_neg
    exact le_of_lt (lt_of_lt_of_le (hdraw x y).2 hden)

/-- wSeedNeg is a 1 × 1 world with density −1. -/
def wSeedNeg : World :=
  { density := -1, width := 1, height := 1, scale := 2, zoom := 1, tiles := [[Cell.Wall]] }

/-- C5 witness: the amended theorem applied to `wSeedNeg` with all draws 1/2. -/
theorem update_seed_extreme_density_witness :
    (wSeedNeg.zoom = 1 ∧ wSeedNeg.density < 0 ∧
      (0 ≤ sHalf.draw 0 0 ∧ sHalf.draw 0 0 < 1)) ∧
    ∃ w2, wSeedNeg.update_seed sHalf = some w2 ∧ tileAt? w2.tiles 0 0 = some Cell.Empty := by
  obtain ⟨w2, h1, h2⟩ :=
    (update_seed_extreme_density wSeedNeg sHalf rfl ⟨by decide, by decide⟩
      (fun bx byy => ⟨by show (0 : ℚ) ≤ mkRat 1 2; decide,
        by show (mkRat 1 2 : ℚ) < 1; decide⟩)).1 (by decide)
  exact ⟨⟨rfl, by decide, ⟨by decide, by decide⟩⟩,
    w2, h1, h2 0 0 (by decide) (by decide) (by decide) (by decide)⟩

/-- wZoomCex is a 1 × 1 world at zoom 2: `width/zoom = 0`, so no block covers the grid. -/
def wZoomCex : World :=
  { density := 0, width := 1, height := 1, scale := 2, zoom := 2, tiles := [[Cell.Wall]] }

/-- C6 counterexample: at zoom 2 on a 1 × 1 grid, cell (0,0)'s block decision would be Empty
(draw 1/2 exceeds density 0), yet reseeding rewrites nothing — `width/zoom = 0` blocks — and
the cell keeps its pre-reseed Wall value, so not every cell is freshly assigned its block's
drawn decision.  On the real 300 × 300 grid any zoom not dividing 300 (e.g. 7) leaves such a
margin in the same way. -/
theorem update_seed_zoom_margin_cex :
    1 ≤ wZoomCex.zoom ∧
    (if sHalf.draw 0 0 > wZoomCex.density then Cell.Empty else Cell.Wall) = Cell.Empty ∧
    (wZoomCex.update_seed sHalf).map (fun w2 => w2.tiles) = some [[Cell.Wall]] ∧
    tileAt? [[Cell.Wall]] 0 0 = some Cell.Wall ∧ Cell.Wall ≠ Cell.Empty := by
  exact ⟨by decide, by decide, by decide, by decide, by decide⟩

/-- C6 (amended): for zoom ≥ 1 reseeding partitions the covered rectangle
`[0, width/zoom*zoom) × [0, height/zoom*zoom)` into zoom × zoom blocks, assigns every covered
cell the single decision drawn for its block `(x/zoom, y/zoom)` — so a block is filled
uniformly — and leaves every cell outside that rectangle (present exactly when zoom does not
divide a dimension) with its pre-reseed value rather than a fresh assignment. -/
theorem update_seed_blocks (w : World) (s : SeedRand) (hz : 1 ≤ w.zoom)
    (hf : gridFits w.tiles w.width w.height) :
    ∃ w2, w.update_seed s = some w2 ∧
      (∀ x y : Int, 0 ≤ x → x < w.width / w.zoom * w.zoom → 0 ≤ y →
          y < w.height / w.zoom * w.zoom →
        tileAt? w2.tiles y x =
          some (if s.draw (x / w.zoom) (y / w.zoom) > w.density then Cell.Empty
            else Cell.Wall)) ∧
      (∀ x y x2 y2 : Int,
        0 ≤ x → x < w.width / w.zoom * w.zoom → 0 ≤ y → y < w.height / w.zoom * w.zoom →
        0 ≤ x2 → x2 < w.width / w.zoom * w.zoom → 0 ≤ y2 → y2 < w.height / w.zoom * w.zoom →
        x / w.zoom = x2 / w.zoom → y / w.zoom = y2 / w.zoom →
        tileAt? w2.tiles y x = tileAt? w2.tiles y2 x2) ∧
      (∀ x y : Int, ¬ (0 ≤ x ∧ x < w.width / w.zoom * w.zoom ∧ 0 ≤ y ∧
          y < w.height / w.zoom * w.zoom) →
        tileAt? w2.tiles y x = tileAt? w.tiles y x) := by
  obtain ⟨w2, hupd, hdims, hA, hB⟩ := update_seed_spec s hz hf
  refine ⟨w2, hupd, hA, ?_, hB⟩
  intro x y x2 y2 hx0 hxw hy0 hyh hx20 hx2w hy20 hy2h hbx hby
  rw [hA x y hx0 hxw hy0 hyh, hA x2 y2 hx20 hx2w hy20 hy2h, hbx, hby]

/-- wZoom2 is a 2 × 2 world at zoom 2 (one block covering the whole grid). -/
def wZoom2 : World :=
  { density := 0, width := 2, height := 2, scale := 2, zoom := 2,
    tiles := [[Cell.Wall, Cell.Wall], [Cell.Wall, Cell.Wall]] }

/-- C6 witness: the amended theorem applied to `wZoom2`; cells (0,0) and (1,1) share block
(0,0) and therefore receive the same drawn value. -/
theorem update_seed_blocks_witness :
    (1 ≤ wZoom2.zoom ∧ (0 : Int) < wZoom2.width / wZoom2.zoom * wZoom2.zoom) ∧
    ∃ w2, wZoom2.update_seed sHalf = some w2 ∧
      tileAt? w2.tiles 0 0 = tileAt? w2.tiles 1 1 := by
  obtain ⟨w2, h1, h2, h3, h4⟩ :=
    update_seed_blocks wZoom2 sHalf (by decide) ⟨by decide, by decide⟩
  refine ⟨⟨by decide, by decide⟩, w2, h1, ?_⟩
  exact h3 0 0 1 1 (by decide) (by decide) (by decide) (by decide) (by decide) (by decide)
    (by decide) (by decide) (by decide) (by decide)

/-- C7: whenever the spawn branch writes a new Life cell, the written color is the mutation
of the color of some Life cell among the cell's in-bounds 8-neighbors in the pre-step grid,
and (the offsets being drawn from `[-2,2]`) each channel of the new color is within ±2 of
that neighbor's channel. -/
theorem update_life_spawn_color (w : World) (r : LifeRand)
    (hf : gridFits w.tiles w.width w.height)
    (x y : Int) (hx0 : 0 ≤ x) (hxw : x < w.width) (hy0 : 0 ≤ y) (hyh : y < w.height)
    (c : Cell) (hwrite : lifeCellWrite w.tiles w.width w.height r x y = some (some c))
    (hoff : (-2 ≤ (r.mutOff x y).1 ∧ (r.mutOff x y).1 ≤ 2) ∧
      (-2 ≤ (r.mutOff x y).2.1 ∧ (r.mutOff x y).2.1 ≤ 2) ∧
      (-2 ≤ (r.mutOff x y).2.2 ∧ (r.mutOff x y).2.2 ≤ 2)) :
    ∃ w2, w.update_life r = some w2 ∧ tileAt? w2.tiles y x = some c ∧
      ∃ i j nr ng nb : Int, (i, j) ∈ offsets ∧
        0 ≤ x + i ∧ x + i < w.width ∧ 0 ≤ y + j ∧ y + j < w.height ∧
        tileAt? w.tiles (y + j) (x + i) = some (Cell.Life nr ng nb) ∧
        c = Cell.Life (mutate_life_cell (nr, ng, nb) (r.mutOff x y)).1
          (mutate_life_cell (nr, ng, nb) (r.mutOff x y)).2.1
          (mutate_life_cell (nr, ng, nb) (r.mutOff x y)).2.2 ∧
        ((mutate_life_cell (nr, ng, nb) (r.mutOff x y)).1 - nr).natAbs ≤ 2 ∧
        ((mutate_life_cell (nr, ng, nb) (r.mutOff x y)).2.1 - ng).natAbs ≤ 2 ∧
        ((mutate_life_cell (nr, ng, nb) (r.mutOff x y)).2.2 - nb).natAbs ≤ 2 := by
  obtain ⟨w2, hupd, hdims, hA, hB⟩ := update_life_spec r hf
  have hval := hA x y hx0 hxw hy0 hyh
  unfold resolveLife at hval
  rw [hwrite] at hval
  obtain ⟨s, rr, gg, bb, hs, hmem, hnw, hceq⟩ := lifeCellWrite_write hwrite
  obtain ⟨i, j, hij, hxi0, hxiw, hyj0, hyjh, hread, a, b, d, hlife⟩ :=
    lifeNeighborScan_elem hs (Cell.Life rr gg bb) hmem
  obtain ⟨ha, hb, hd⟩ : rr = a ∧ gg = b ∧ bb = d := by
    injection hlife with h1 h2 h3
    exact ⟨h1, h2, h3⟩
  subst ha
  subst hb
  subst hd
  obtain ⟨d1, d2, d3⟩ := mutate_abs_le (rr, gg, bb) (r.mutOff x y) hoff.1 hoff.2.1 hoff.2.2
  exact ⟨w2, hupd, hval, i, j, rr, gg, bb, hij, hxi0, hxiw, hyj0, hyjh, hread, hceq,
    d1, d2, d3⟩

/-- C7 witness: the theorem applied to `wLifeEx` at cell (0,0), whose single Life neighbor
(10, 20, 255) mutates to (11, 18, 255) under offsets (1, −2, 2). -/
theorem update_life_spawn_color_witness :
    lifeCellWrite wLifeEx.tiles wLifeEx.width wLifeEx.height rLifeEx 0 0 =
      some (some (Cell.Life 11 18 255)) ∧
    ∃ w2, wLifeEx.update_life rLifeEx = some w2 ∧
      tileAt? w2.tiles 0 0 = some (Cell.Life 11 18 255) := by
  obtain ⟨w2, h1, h2, -⟩ :=
    update_life_spawn_color wLifeEx rLifeEx ⟨by decide, by decide⟩ 0 0 (by decide) (by decide)
      (by decide) (by decide) (Cell.Life 11 18 255) (by decide)
      ⟨⟨by decide, by decide⟩, ⟨by decide, by decide⟩, ⟨by decide, by decide⟩⟩
  exact ⟨by decide, w2, h1, h2⟩

/-- C10: every operation preserves the invariant that Life colors lie in `[0,255]` per
channel: `mutate_life_cell` maps in-range colors to in-range colors (for any offsets), the
click handler writes a Life cell only with its three draws from `0..=255`, `update_life`
writes only colors produced by `mutate_life_cell` from a Life cell already in the grid, and
under the invariant the renderer's per-channel `i16`-to-`u8` conversion (`i16ToU8?` inside
`cellRgba?`) never fails. -/
theorem life_color_invariant :
    (∀ rgb off : Int × Int × Int, inRange255 rgb → inRange255 (mutate_life_cell rgb off)) ∧
    (∀ (w : World) (row col r g b : Int) (w2 : World),
      0 ≤ r → r ≤ 255 → 0 ≤ g → g ≤ 255 → 0 ≤ b → b ≤ 255 →
      lifeInvariant w.tiles → w.place_life row col r g b = some w2 →
      lifeInvariant w2.tiles) ∧
    (∀ (w : World) (r : LifeRand) (w2 : World),
      gridFits w.tiles w.width w.height → lifeInvariant w.tiles →
      w.update_life r = some w2 → lifeInvariant w2.tiles) ∧
    (∀ t : Tiles, lifeInvariant t →
      ∀ y x c, tileAt? t y x = some c → (cellRgba? c).isSome) := by
  refine ⟨mutate_range, ?_, ?_, ?_⟩
  · intro w row col r g b w2 hr0 hr1 hg0 hg1 hb0 hb1 hinv hplace
    unfold World.place_life at hplace
    split at hplace
    · exact Option.noConfusion hplace
    · split at hplace
      · rw [← Option.some.inj hplace]
        exact hinv
      · match hset : setTile? w.tiles row col (Cell.Life r g b), hplace with
        | some t2, hplace =>
          have hw2 : w2.tiles = t2 := by
            simp only [Option.map_some'] at hplace
            rw [← Option.some.inj hplace]
          obtain ⟨hrow0, hcol0, rw2, hrw, hxlt, ht2⟩ := setTile?_inv hset
          intro y x a b2 d h
          rw [hw2, ht2] at h
          by_cases hsame : x = col ∧ y = row
          · rw [hsame.1, hsame.2,
              tileAt?_set_self w.tiles row col (Cell.Life r g b) rw2 hrow0 hcol0 hrw hxlt] at h
            obtain ⟨h1, h2, h3⟩ : r = a ∧ g = b2 ∧ b = d := by
              injection Option.some.inj h with e1 e2 e3
              exact ⟨e1, e2, e3⟩
            subst h1
            subst h2
            subst h3
            exact ⟨hr0, hr1, hg0, hg1, hb0, hb1⟩
          · rw [tileAt?_set_ne w.tiles row col (Cell.Life r g b) rw2 hrow0 hcol0 hrw hsame] at h
            exact hinv y x a b2 d h
        | none, hplace => simp at hplace
  · intro w r w2 hf hinv hupd
    obtain ⟨w2x, hupdx, hdims, hA, hB⟩ := update_life_spec r hf
    rw [hupd] at hupdx
    have hw2 : w2 = w2x := Option.some.inj hupdx
    subst hw2
    intro y x a b d h
    by_cases hin : 0 ≤ x ∧ x < w.width ∧ 0 ≤ y ∧ y < w.height
    · have hval := hA x y hin.1 hin.2.1 hin.2.2.1 hin.2.2.2
      unfold resolveLife at hval
      match hlc : lifeCellWrite w.tiles w.width w.height r x y with
      | none =>
        rw [hlc] at hval
        rw [hval] at h
        exact Option.noConfusion h
      | some none =>
        rw [hlc] at hval
        rw [hval] at h
        exact hinv y x a b d h
      | some (some c2) =>
        rw [hlc] at hval
        rw [hval] at h
        obtain ⟨s, rr, gg, bb, hs, hmem, hnw, hceq⟩ := lifeCellWrite_write hlc
        obtain ⟨i, j, hij, hxi0, hxiw, hyj0, hyjh, hread, a2, b2, d2, hlife⟩ :=
          lifeNeighborScan_elem hs (Cell.Life rr gg bb) hmem
        obtain ⟨e1, e2, e3⟩ : rr = a2 ∧ gg = b2 ∧ bb = d2 := by
          injection hlife with e1 e2 e3
          exact ⟨e1, e2, e3⟩
        subst e1
        subst e2
        subst e3
        have hnbr : inRange255 (rr, gg, bb) := hinv (y + j) (x + i) rr gg bb hread
        have hmut := mutate_range (rr, gg, bb) (r.mutOff x y) hnbr
        have hc2 : c2 = Cell.Life a b d := Option.some.inj h
        rw [hc2] at hceq
        obtain ⟨f1, f2, f3⟩ : a = (mutate_life_cell (rr, gg, bb) (r.mutOff x y)).1 ∧
            b = (mutate_life_cell (rr, gg, bb) (r.mutOff x y)).2.1 ∧
            d = (mutate_life_cell (rr, gg, bb) (r.mutOff x y)).2.2 := by
          injection hceq with f1 f2 f3
          exact ⟨f1, f2, f3⟩
        subst f1
        subst f2
        subst f3
        exact hmut
    · have hval := hB x y hin
      rw [hval] at h
      exact hinv y x a b d h
  · intro t hinv y x c h
    cases c with
    | Empty => rfl
    | Wall => rfl
    | Life a b d =>
      obtain ⟨h1, h2, h3, h4, h5, h6⟩ := hinv y x a b d h
      unfold cellRgba? i16ToU8?
      dsimp only
      rw [if_pos ⟨h1, h2⟩, if_pos ⟨h3, h4⟩, if_pos ⟨h5, h6⟩]
      rfl

/-- C10 witness: the invariant theorem applied at a concrete in-range color and at the
concrete grid of `wLifeEx`. -/
theorem life_color_invariant_witness :
    inRange255 (10, 20, 255) ∧ inRange255 (mutate_life_cell (10, 20, 255) (2, -2, 1)) :=
  ⟨⟨by decide, by decide, by decide, by decide, by decide, by decide⟩,
    life_color_invariant.1 (10, 20, 255) (2, -2, 1)
      ⟨by decide, by decide, by decide, by decide, by decide, by decide⟩⟩

end ZSlime
